import Mathlib

/-
Verification of the extraction core of `gitorial-to-dotcodeschool`.

The definitions below are a shallow embedding of the TypeScript sources:
  * `src/extractor.ts`   — the extraction pipeline (commit-history mode and
    steps-directory mode, pairing, section assignment, snapshot fetching);
  * `index.js`           — the `slugify` helper (identical helper used by the
    extractor via `./utils`).

Modelling conventions:
  * JavaScript strings are modelled by Lean `String` (ASCII fragment: `String.toLower`
    in Lean lowers exactly the characters `A`-`Z`, which coincides with
    `String.prototype.toLowerCase` on ASCII input).
  * `fs`/`git` reads are modelled by explicit data: a commit snapshot is a list of
    tracked paths plus a partial read function (`String → Option String`, `none`
    meaning the read fails); a step directory is a tree of `FsEntry` values, where
    a file's content `none` means the read fails.
  * JavaScript `Array.prototype.sort` (stable since ES2019) is modelled by a stable
    insertion sort `sortByKey`; the comparators in the source are of the form
    `(a, b) => key a - key b`, i.e. stable ascending sort by an integer key.
  * `Array.prototype.findIndex` returning `-1` on a miss is modelled on `Int`.
-/

namespace Gitorial

/-- True when `sub` occurs as a contiguous substring of `s`
(JavaScript `String.prototype.includes`). -/
def strContains (s sub : String) : Bool :=
  (List.range (s.data.length + 1)).any (fun i => sub.data.isPrefixOf (s.data.drop i))

/-- JavaScript `String.prototype.startsWith` (ASCII model, character-wise). -/
def strStartsWith (s pre : String) : Bool :=
  pre.data.isPrefixOf s.data

/-- JavaScript `String.prototype.substring(n)` (ASCII model, character-wise). -/
def strDrop (s : String) (n : Nat) : String :=
  ⟨s.data.drop n⟩

/-- The whitespace class trimmed by JavaScript `String.prototype.trim`
(ASCII fragment). -/
def isJsWhitespace (c : Char) : Bool :=
  c = ' ' || c = '\t' || c = '\n' || c = '\r' || c = '\x0b' || c = '\x0c'

/-- JavaScript `String.prototype.trim` (ASCII model): strip leading and trailing
whitespace. -/
def strTrim (s : String) : String :=
  ⟨((s.data.dropWhile isJsWhitespace).reverse.dropWhile isJsWhitespace).reverse⟩

/-- Membership in the JavaScript regex class `\w`, i.e. `[A-Za-z0-9_]`. -/
def isWordChar (c : Char) : Bool :=
  ('a' ≤ c && c ≤ 'z') || ('A' ≤ c && c ≤ 'Z') || ('0' ≤ c && c ≤ '9') || c = '_'

/-- Replace every maximal run of spaces by a single hyphen
(JavaScript `.replace(/ +/g, '-')`).  The flag records whether the previous
character belonged to a space run already replaced. -/
def replaceSpaceRuns : Bool → List Char → List Char
  | _, [] => []
  | inRun, c :: rest =>
      if c = ' ' then
        if inRun then replaceSpaceRuns true rest else '-' :: replaceSpaceRuns true rest
      else c :: replaceSpaceRuns false rest

/-- The `slugify` helper of `index.js` (also used by `extractor.ts`):
lowercase, then `.replace(/[^\w ]+/g, '')` (drop every character that is neither a
word character nor a space), then `.replace(/ +/g, '-')`.  The lowering is the
character-wise `Char.toLower` map, which is exactly `String.toLower`
(see `slugify_toLower` below). -/
def slugify (text : String) : String :=
  ⟨replaceSpaceRuns false ((text.data.map Char.toLower).filter (fun c => isWordChar c || c = ' '))⟩

/-! ## Data model (`src/types.ts`) -/

/-- One line of `git log --reverse --format="%H %s"` (TS `GitCommit`). -/
structure GitCommit where
  hash : String
  message : String
deriving DecidableEq, Repr, Inhabited

/-- A classified commit with its prefix stripped
(TS `TemplateCommit` / `SolutionCommit` / `ActionCommit`, all the same shape). -/
structure TaggedCommit where
  hash : String
  message : String
deriving DecidableEq, Repr, Inhabited

/-- TS `LessonContent`: mapping from relative file path to full text content,
modelled as an association list in insertion order. -/
abbrev ContentMap := List (String × String)

/-- Step type vocabulary (TS `Step['type']`); `sec` models the string tag
`'section'`, the other constructors match their TS string tags. -/
inductive StepType where
  | sec
  | template
  | solution
  | action
  | unknown
deriving DecidableEq, Repr, Inhabited

/-- One numbered directory under `steps/` (TS `Step`).  The TS `dir` field is the
directory name, a numeral; the model keeps only its numeric value (`parseInt`),
which is what every use in `extractor.ts` consumes (`parseInt(step.dir)`).
`commitHash` flattens `metadata.commitHash`. -/
structure Step where
  dir : Nat
  path : String
  title : String
  type : StepType
  commitHash : String
  commitMessage : String
  readmeContent : String
  order : Nat
deriving DecidableEq, Repr, Inhabited

/-- Lesson variant tag (TS `'template-solution' | 'source'`). -/
inductive LessonType where
  | templateSolution
  | source
deriving DecidableEq, Repr, Inhabited

/-- TS `Lesson` (union of `TemplateSolutionLesson` and `SourceLesson`), kept as the
source's one record shape with optional members. -/
structure Lesson where
  title : String
  slug : String
  type : LessonType
  order : Nat
  commitHash : String
  templateHash : Option String
  solutionHash : Option String
  sourceHash : Option String
  templateContent : Option ContentMap
  solutionContent : Option ContentMap
  sourceContent : Option ContentMap
  templateStep : Option Step
  solutionStep : Option Step
  sourceStep : Option Step
deriving DecidableEq, Repr, Inhabited

/-- TS `Section`. -/
structure Section where
  title : String
  slug : String
  lessons : List Lesson
  order : Nat
  hash : Option String
  stepOrder : Option Nat
  readmeContent : Option String
deriving DecidableEq, Repr, Inhabited

/-- TS `GitorialData`. -/
structure GitorialData where
  sections : List Section
deriving DecidableEq, Repr, Inhabited

/-! ## Stable sort by an integer key

Models `Array.prototype.sort` (stable, ES2019) applied with a comparator of the
form `(a, b) => key a - key b`, i.e. a stable ascending sort by `key`. -/

/-- Insert `x` before the first element whose key is strictly greater than, or
equal to, `key x` allows... precisely: `x` goes before the first element `y` with
`¬ key y < key x`, i.e. after every run of strictly smaller keys, and before equal
keys coming from later in the input — the stable position for a `foldr` insertion
sort. -/
def insertByKey (key : α → Int) (x : α) : List α → List α
  | [] => [x]
  | y :: ys => if key y < key x then y :: insertByKey key x ys else x :: y :: ys

/-- Stable ascending insertion sort by `key`. -/
def sortByKey (key : α → Int) (l : List α) : List α :=
  l.foldr (insertByKey key) []

/-! ## Commit-history mode (`extractGitorialData`, `src/extractor.ts` lines 21-205)

The git interaction is abstracted: the ordered commit list of the branch is the
input, and `getCommitContent` is abstracted by a `fetch : String → ContentMap`
function from commit hashes (its own model appears further below).  The
steps-directory fallbacks of lines 28-31 and 178-182 are orchestration between the
two modes; `extractFromCommits` is the commit-history path itself. -/

/-- Accumulator of the first classification pass (lines 49-52). -/
structure ClassifiedCommits where
  sections : List Section
  templateCommits : List TaggedCommit
  solutionCommits : List TaggedCommit
  actionCommits : List TaggedCommit
deriving DecidableEq, Repr, Inhabited

/-- One iteration of the grouping loop (lines 55-90): `readme:` commits are
dropped; `section:` / `template:` / `solution:` / `action:` commits are pushed to
their bucket with the prefix stripped and trimmed; anything else is ignored. -/
def classifyCommit (acc : ClassifiedCommits) (c : GitCommit) : ClassifiedCommits :=
  if strStartsWith c.message "readme:" then acc
  else if strStartsWith c.message "section:" then
    let sectionTitle := strTrim (strDrop c.message "section:".length)
    { acc with sections := acc.sections ++
        [{ title := sectionTitle, slug := slugify sectionTitle, lessons := [],
           order := acc.sections.length + 1, hash := some c.hash,
           stepOrder := none, readmeContent := none }] }
  else if strStartsWith c.message "template:" then
    { acc with templateCommits := acc.templateCommits ++
        [{ hash := c.hash, message := strTrim (strDrop c.message "template:".length) }] }
  else if strStartsWith c.message "solution:" then
    { acc with solutionCommits := acc.solutionCommits ++
        [{ hash := c.hash, message := strTrim (strDrop c.message "solution:".length) }] }
  else if strStartsWith c.message "action:" then
    { acc with actionCommits := acc.actionCommits ++
        [{ hash := c.hash, message := strTrim (strDrop c.message "action:".length) }] }
  else acc

/-- The whole first pass over the ordered commit list. -/
def classifyCommits (commits : List GitCommit) : ClassifiedCommits :=
  commits.foldl classifyCommit ⟨[], [], [], []⟩

/-- The default section synthesized when no `section:` commit exists (lines 93-100). -/
def defaultSection : Section :=
  { title := "Getting Started", slug := "getting-started", lessons := [],
    order := 1, hash := none, stepOrder := none, readmeContent := none }

/-- Second pass, one template (lines 105-132): find the first solution with equal
trimmed message; attach it when present. -/
def pairTemplate (solutions : List TaggedCommit) (t : TaggedCommit) : Lesson :=
  match solutions.find? (fun s => strTrim s.message == strTrim t.message) with
  | some s =>
      { title := t.message, slug := slugify t.message, type := .templateSolution,
        order := 0, commitHash := t.hash,
        templateHash := some t.hash, solutionHash := some s.hash, sourceHash := none,
        templateContent := none, solutionContent := none, sourceContent := none,
        templateStep := none, solutionStep := none, sourceStep := none }
  | none =>
      { title := t.message, slug := slugify t.message, type := .templateSolution,
        order := 0, commitHash := t.hash,
        templateHash := some t.hash, solutionHash := none, sourceHash := none,
        templateContent := none, solutionContent := none, sourceContent := none,
        templateStep := none, solutionStep := none, sourceStep := none }

/-- An action commit becomes a source lesson (lines 135-142). -/
def actionLesson (a : TaggedCommit) : Lesson :=
  { title := a.message, slug := slugify a.message, type := .source,
    order := 0, commitHash := a.hash,
    templateHash := none, solutionHash := none, sourceHash := some a.hash,
    templateContent := none, solutionContent := none, sourceContent := none,
    templateStep := none, solutionStep := none, sourceStep := none }

/-- Result of `commits.findIndex(c => c.hash === h)` where `h` may be `undefined`
(a section without a hash): `-1` when not found. -/
def commitIndexOf (commits : List GitCommit) (h : Option String) : Int :=
  match h with
  | none => -1
  | some hs =>
      let i := commits.findIdx (fun c => c.hash == hs)
      if i = commits.length then -1 else (i : Int)

/-- Hash giving a lesson's stream identity (lines 149-150 and 162):
`lesson.type === 'template-solution' ? lesson.templateHash : lesson.sourceHash`. -/
def lessonHash (l : Lesson) : Option String :=
  if l.type = .templateSolution then l.templateHash else l.sourceHash

/-- The inner scan of the distribution loop (lines 166-171): starting from the
current section index, move to the last `i > cur` whose section commit appears in
the history strictly before the lesson's commit. -/
def advanceSection (commits : List GitCommit) (secs : List Section) (cur : Nat)
    (lessonIdx : Int) : Nat :=
  secs.enum.foldl
    (fun c p =>
      if cur + 1 ≤ p.1 ∧ -1 < commitIndexOf commits p.2.hash ∧
          commitIndexOf commits p.2.hash < lessonIdx
      then p.1 else c) cur

/-- Append a lesson to section `i`, setting its final `order` to the 1-based
position in that section's list (lines 174-175 / 418-419). -/
def pushLesson (secs : List Section) (i : Nat) (l : Lesson) : List Section :=
  secs.modify (fun s => { s with
    lessons := s.lessons ++ [{ l with order := s.lessons.length + 1 }] }) i

/-- The distribution loop of commit-history mode (lines 156-176). -/
def distribute (commits : List GitCommit) : Nat → List Section → List Lesson → List Section
  | _, secs, [] => secs
  | cur, secs, l :: rest =>
      let cur' := advanceSection commits secs cur (commitIndexOf commits (lessonHash l))
      distribute commits cur' (pushLesson secs cur' l) rest

/-- Content extraction for one lesson (lines 186-200), with `getCommitContent`
abstracted by `fetch`. -/
def fillLessonCommit (fetch : String → ContentMap) (l : Lesson) : Lesson :=
  if l.type = .templateSolution then
    let l1 := match l.templateHash with
      | some h => { l with templateContent := some (fetch h) }
      | none => l
    match l1.solutionHash with
    | some h => { l1 with solutionContent := some (fetch h) }
    | none => l1
  else
    match l.sourceHash with
    | some h => { l with sourceContent := some (fetch h) }
    | none => l

/-- The sections produced by commit-history mode before content extraction
(lines 49-182). -/
def commitModeSections (commits : List GitCommit) : List Section :=
  let cs := classifyCommits commits
  let secs0 := if cs.sections.isEmpty then [defaultSection] else cs.sections
  let allLessons := sortByKey (fun l => commitIndexOf commits (lessonHash l))
    (cs.templateCommits.map (pairTemplate cs.solutionCommits) ++
      cs.actionCommits.map actionLesson)
  distribute commits 0 secs0 allLessons

/-- Commit-history mode extraction (`extractGitorialData` without the
steps-directory fallbacks): classification, pairing, sorting, distribution, then
content extraction. -/
def extractFromCommits (commits : List GitCommit) (fetch : String → ContentMap) :
    GitorialData :=
  { sections := (commitModeSections commits).map
      (fun s => { s with lessons := s.lessons.map (fillLessonCommit fetch) }) }

/-- All lessons of a section list, in order. -/
def flattenLessons (secs : List Section) : List Lesson :=
  secs.flatMap (·.lessons)

/-- The commit hashes whose content the loop of lines 185-202 fetches for one
lesson. -/
def lessonFetchHashes (l : Lesson) : List String :=
  if l.type = .templateSolution then l.templateHash.toList ++ l.solutionHash.toList
  else l.sourceHash.toList

/-- Every commit hash passed to `getCommitContent` during the content-extraction
phase over the given sections. -/
def fetchedCommitHashes (secs : List Section) : List String :=
  (flattenLessons secs).flatMap lessonFetchHashes

/-! ## Directory-listing mode (`extractDataFromSteps`, `src/extractor.ts` lines 218-443)

The filesystem pass of lines 224-300 is abstracted: the input is the list of
`Step` records (one per numbered subdirectory of `steps/`); `getDirectoryContent`
is abstracted by `fetch : String → ContentMap` from a step's path.  Lines 227-229
sort the numbered directories by ascending numeric value; this sort is part of the
model (`sortByKey` on `dir`). -/

/-- Step classification by commit-message tag (lines 276-285). -/
def classifyStepType (commitMessage : String) : StepType :=
  if strStartsWith commitMessage "section:" then .sec
  else if strStartsWith commitMessage "template:" then .template
  else if strStartsWith commitMessage "solution:" then .solution
  else if strStartsWith commitMessage "action:" then .action
  else .unknown

/-- Build the section list from the section-marker steps (lines 309-319). -/
def buildSections (sectionSteps : List Step) : List Section :=
  sectionSteps.foldl
    (fun secs s => secs ++
      [{ title := s.title, slug := slugify s.title, lessons := [],
         order := secs.length + 1, hash := none,
         stepOrder := some s.order, readmeContent := some s.readmeContent }]) []

/-- Pair a template step with the solution step at numeric position `dir + 1`
(lines 337-365); `parseInt(solution.dir) === parseInt(template.dir) + 1`. -/
def pairTemplateStep (solutionSteps : List Step) (t : Step) : Lesson :=
  match solutionSteps.find? (fun s => s.dir == t.dir + 1) with
  | some s =>
      { title := t.title, slug := slugify t.title, type := .templateSolution,
        order := t.order, commitHash := t.commitHash,
        templateHash := none, solutionHash := none, sourceHash := none,
        templateContent := none, solutionContent := none, sourceContent := none,
        templateStep := some t, solutionStep := some s, sourceStep := none }
  | none =>
      { title := t.title, slug := slugify t.title, type := .templateSolution,
        order := t.order, commitHash := t.commitHash,
        templateHash := none, solutionHash := none, sourceHash := none,
        templateContent := none, solutionContent := none, sourceContent := none,
        templateStep := some t, solutionStep := none, sourceStep := none }

/-- An action step becomes a source lesson (lines 368-375); an uncategorized step
is turned into exactly the same shape (lines 387-394). -/
def stepSourceLesson (s : Step) : Lesson :=
  { title := s.title, slug := slugify s.title, type := .source,
    order := s.order, commitHash := s.commitHash,
    templateHash := none, solutionHash := none, sourceHash := none,
    templateContent := none, solutionContent := none, sourceContent := none,
    templateStep := none, solutionStep := none, sourceStep := some s }

/-- The per-lesson section scan of lines 406-415: walk the sections from the
front, remember the last index whose `stepOrder || 0` is strictly below the
lesson's order, stop at the first that is not. -/
def findSectionIndexAux (order : Nat) : Nat → Nat → List Section → Nat
  | _, best, [] => best
  | i, best, s :: rest =>
      if s.stepOrder.getD 0 < order then findSectionIndexAux order (i + 1) i rest
      else best

/-- `sectionIndex` computed for one lesson (initial value `0`, lines 405-415). -/
def findSectionIndex (secs : List Section) (order : Nat) : Nat :=
  findSectionIndexAux order 0 0 secs

/-- The distribution loop of directory-listing mode (lines 403-420). -/
def distributeSteps : List Section → List Lesson → List Section
  | secs, [] => secs
  | secs, l :: rest => distributeSteps (pushLesson secs (findSectionIndex secs l.order) l) rest

/-- Content extraction for one lesson in directory-listing mode (lines 424-438),
with `getDirectoryContent lesson.xStep.path` abstracted by `fetch`. -/
def fillLessonStep (fetch : String → ContentMap) (l : Lesson) : Lesson :=
  if l.type = .templateSolution then
    let l1 := match l.templateStep with
      | some st => { l with templateContent := some (fetch st.path) }
      | none => l
    match l1.solutionStep with
    | some st => { l1 with solutionContent := some (fetch st.path) }
    | none => l1
  else
    match l.sourceStep with
    | some st => { l with sourceContent := some (fetch st.path) }
    | none => l

/-- The sections produced by directory-listing mode before content extraction
(lines 224-420), or the fatal errors of lines 231-233 and 321-324. -/
def stepModeSections (steps : List Step) : Except String (List Section) :=
  let sorted := sortByKey (fun s => (s.dir : Int)) steps
  if sorted.isEmpty then
    .error "No numbered step directories found in steps directory"
  else
    let sectionSteps := sorted.filter (fun s => s.type == .sec)
    let sections0 := buildSections sectionSteps
    if sections0.isEmpty then
      .error "No sections found in the gitorial. The gitorial format must have at least one section commit with the prefix \x22section:\x22"
    else
      let sections := sortByKey (fun s => (s.stepOrder.getD 0 : Int)) sections0
      let templateSteps := sorted.filter (fun s => s.type == .template)
      let solutionSteps := sorted.filter (fun s => s.type == .solution)
      let actionSteps := sorted.filter (fun s => s.type == .action)
      let categorized := sectionSteps.map (·.dir) ++ templateSteps.map (·.dir) ++
        solutionSteps.map (·.dir) ++ actionSteps.map (·.dir)
      let uncategorizedSteps := sorted.filter (fun s => !(categorized.contains s.dir))
      let allLessons := sortByKey (fun l => (l.order : Int))
        (templateSteps.map (pairTemplateStep solutionSteps) ++
          actionSteps.map stepSourceLesson ++ uncategorizedSteps.map stepSourceLesson)
      Except.ok (distributeSteps sections allLessons)

/-- Directory-listing mode extraction (`extractDataFromSteps`). -/
def extractFromSteps (steps : List Step) (fetch : String → ContentMap) :
    Except String GitorialData :=
  (stepModeSections steps).map
    (fun secs => GitorialData.mk
      (secs.map (fun s => { s with lessons := s.lessons.map (fillLessonStep fetch) })))

/-- The steps whose directory content the loop of lines 423-440 fetches for one
lesson. -/
def lessonFetchSteps (l : Lesson) : List Step :=
  if l.type = .templateSolution then l.templateStep.toList ++ l.solutionStep.toList
  else l.sourceStep.toList

/-- Every step whose directory is passed to `getDirectoryContent` during the
content-extraction phase over the given sections. -/
def fetchedSteps (secs : List Section) : List Step :=
  (flattenLessons secs).flatMap lessonFetchSteps

/-! ## Snapshot fetchers (lines 446-480 and 488-521) -/

/-- The exclusion filter of `getCommitContent` (lines 497-502): drop paths
containing the metadata sidecar name or `.gitattributes`, and the exact path
`.gitignore`. -/
def isExcludedCommitFile (f : String) : Bool :=
  strContains f "gitorial_metadata.json" || strContains f ".gitattributes" ||
    f == ".gitignore"

/-- One iteration of the per-file loop of `getCommitContent` (lines 507-518):
add the file on success, record a warning on failure. -/
def commitReadStep (readFile : String → Option String) (acc : ContentMap × List String)
    (f : String) : ContentMap × List String :=
  match readFile f with
  | some txt => (acc.1 ++ [(f, txt)], acc.2)
  | none => (acc.1, acc.2 ++ [f])

/-- `getCommitContent` (lines 488-521): `files` is the `git ls-tree` path listing
of the commit and `readFile` the per-file `git show` (`none` when the command
fails).  Returns the content map and the warned-about files. -/
def getCommitContent (files : List String) (readFile : String → Option String) :
    ContentMap × List String :=
  (files.filter (fun f => !(isExcludedCommitFile f))).foldl (commitReadStep readFile) ([], [])

/-- A directory tree entry; a file's `none` content models an unreadable file. -/
inductive FsEntry where
  | file (name : String) (content : Option String)
  | dir (name : String) (entries : List FsEntry)
deriving Repr, Inhabited

/-- `path.join` of a relative prefix and an entry name (empty prefix at the root). -/
def joinPath (pre name : String) : String :=
  if pre = "" then name else pre ++ "/" ++ name

/-- The exclusion filter of `getDirectoryContent` (lines 461-465): drop files
whose NAME contains the metadata sidecar name or `.gitattributes` (no `.gitignore`
case here). -/
def isExcludedDirFile (name : String) : Bool :=
  strContains name "gitorial_metadata.json" || strContains name ".gitattributes"

mutual

/-- One entry of `readFilesRecursively` (lines 450-476). -/
def readEntry (pre : String) : FsEntry → ContentMap × List String
  | .file name c =>
      if isExcludedDirFile name then ([], [])
      else
        match c with
        | some txt => ([(joinPath pre name, txt)], [])
        | none => ([], [joinPath pre name])
  | .dir name es => readEntries (joinPath pre name) es

/-- The entry loop of `readFilesRecursively` (lines 453-475). -/
def readEntries (pre : String) : List FsEntry → ContentMap × List String
  | [] => ([], [])
  | e :: rest =>
      let r1 := readEntry pre e
      let r2 := readEntries pre rest
      (r1.1 ++ r2.1, r1.2 ++ r2.2)

end

/-- `getDirectoryContent` (lines 446-480) on the entry list of the lesson's
directory: the content map plus the files warned about. -/
def getDirectoryContent (entries : List FsEntry) : ContentMap × List String :=
  readEntries "" entries

mutual

/-- Reference flattening of a tree entry: every file, with its relative path, its
name and its (possibly unreadable) content, in traversal order. -/
def filesOfEntry (pre : String) : FsEntry → List (String × String × Option String)
  | .file name c => [(joinPath pre name, name, c)]
  | .dir name es => filesOfEntries (joinPath pre name) es

/-- Reference flattening of an entry list. -/
def filesOfEntries (pre : String) : List FsEntry → List (String × String × Option String)
  | [] => []
  | e :: rest => filesOfEntry pre e ++ filesOfEntries pre rest

end

/-- Expected content-map contribution of one flattened file: readable files whose
name passes the exclusion filter, keyed by relative path. -/
def includeFile (x : String × String × Option String) : Option (String × String) :=
  if isExcludedDirFile x.2.1 then none else x.2.2.map (fun c => (x.1, c))

/-- Expected warning contribution of one flattened file: unreadable files whose
name passes the exclusion filter. -/
def warnFile (x : String × String × Option String) : Option String :=
  if isExcludedDirFile x.2.1 then none
  else
    match x.2.2 with
    | some _ => none
    | none => some x.1

/-! ## Sample data (concrete inputs used by witnesses) -/

/-- A section-marker step, as built by lines 287-299 from `steps/1`. -/
def sampleSectionStep : Step :=
  { dir := 1, path := "steps/1", title := "Test Section", type := .sec,
    commitHash := "aaa", commitMessage := "section: Test Section",
    readmeContent := "# Test Section", order := 1 }

/-- A template step from `steps/2`. -/
def sampleTemplateStep : Step :=
  { dir := 2, path := "steps/2", title := "Implement Hello World", type := .template,
    commitHash := "bbb", commitMessage := "template: Implement Hello World",
    readmeContent := "# Implement Hello World", order := 2 }

/-- The solution step from `steps/3`, adjacent to the template. -/
def sampleSolutionStep : Step :=
  { dir := 3, path := "steps/3", title := "Hello World Implementation", type := .solution,
    commitHash := "ccc", commitMessage := "solution: Implement Hello World",
    readmeContent := "# Hello World Implementation", order := 3 }

/-- An action step from `steps/4`. -/
def sampleActionStep : Step :=
  { dir := 4, path := "steps/4", title := "Add Package Configuration", type := .action,
    commitHash := "ddd", commitMessage := "action: Add Package Configuration",
    readmeContent := "# Add Package Configuration", order := 4 }

/-- A template step with no adjacent solution, from `steps/5`. -/
def sampleLoneTemplateStep : Step :=
  { dir := 5, path := "steps/5", title := "Lone Template", type := .template,
    commitHash := "eee", commitMessage := "template: Lone Template",
    readmeContent := "# Lone Template", order := 5 }

/-- A small steps-directory stream exercising every step kind. -/
def sampleSteps : List Step :=
  [sampleSectionStep, sampleTemplateStep, sampleSolutionStep, sampleActionStep,
    sampleLoneTemplateStep]

/-- A small commit stream (the shape of `test.sh`'s repository). -/
def sampleCommits : List GitCommit :=
  [{ hash := "c1", message := "section: Test Section" },
    { hash := "c2", message := "template: Implement Hello World" },
    { hash := "c3", message := "solution: Implement Hello World" },
    { hash := "c4", message := "action: Add Package Configuration" },
    { hash := "c5", message := "template: Lone Template" }]


/-- C1 witness data: two commits whose section marker strictly precedes the
template commit in the stream. -/
def c1WitnessCommits : List GitCommit :=
  [{ hash := "s1", message := "section: A" },
   { hash := "t1", message := "template: T" }]

/-- C1 witness data: the classified section of `c1WitnessCommits`. -/
def c1WitnessSection : Section :=
  { title := "A", slug := "a", lessons := [], order := 1, hash := some "s1",
    stepOrder := none, readmeContent := none }

/-- C1 witness data: the lesson unit of `c1WitnessCommits` before distribution. -/
def c1WitnessLesson : Lesson :=
  { title := "T", slug := "t", type := .templateSolution, order := 0,
    commitHash := "t1", templateHash := some "t1", solutionHash := none,
    sourceHash := none, templateContent := none, solutionContent := none,
    sourceContent := none, templateStep := none, solutionStep := none,
    sourceStep := none }

/-- C1 witness data: a section with `stepOrder = 1` for the directory-listing
half of the witness. -/
def c1WitnessStepSection : Section :=
  { title := "A", slug := "a", lessons := [], order := 1, hash := none,
    stepOrder := some 1, readmeContent := none }

/-- C1 witness data: a lesson holding stream order `2`, after the section
boundary at `1`. -/
def c1WitnessStepLesson : Lesson := { c1WitnessLesson with order := 2 }


/-! ## Helper lemmas: `Char.toLower` (the ASCII lowering `A`-`Z` → `a`-`z`) -/

theorem charOfNat_toNat {n : Nat} (h2 : n ≤ 122) : (Char.ofNat n).toNat = n := by
  have hv : n.isValidChar := Or.inl (by omega)
  simp only [Char.ofNat, hv, reduceDIte, Char.ofNatAux]
  rfl

theorem toLower_eq (c : Char) :
    c.toLower = if c.toNat ≥ 65 ∧ c.toNat ≤ 90 then Char.ofNat (c.toNat + 32) else c := rfl

theorem toLower_idem (c : Char) : c.toLower.toLower = c.toLower := by
  rw [toLower_eq c, toLower_eq]
  by_cases h : c.toNat ≥ 65 ∧ c.toNat ≤ 90
  · rw [if_pos h]
    have ht : (Char.ofNat (c.toNat + 32)).toNat = c.toNat + 32 := charOfNat_toNat (by omega)
    rw [ht, if_neg (by omega)]
  · rw [if_neg h, if_neg h]

theorem toLower_space_iff (c : Char) : c.toLower = ' ' ↔ c = ' ' := by
  rw [toLower_eq]
  by_cases h : c.toNat ≥ 65 ∧ c.toNat ≤ 90
  · rw [if_pos h]
    constructor
    · intro hc
      have ht : (Char.ofNat (c.toNat + 32)).toNat = c.toNat + 32 := charOfNat_toNat (by omega)
      have : (' ' : Char).toNat = 32 := rfl
      rw [hc] at ht
      omega
    · intro hc
      subst hc
      exact absurd h (by decide)
  · rw [if_neg h]

/-! ## Helper lemmas: the stable sort -/

theorem insertByKey_perm (key : α → Int) (x : α) (l : List α) :
    (insertByKey key x l).Perm (x :: l) := by
  induction l with
  | nil => exact List.Perm.refl _
  | cons y ys ih =>
      rw [insertByKey]
      by_cases h : key y < key x
      · rw [if_pos h]
        exact ((ih.cons y).trans (List.Perm.swap x y ys))
      · rw [if_neg h]

theorem sortByKey_perm (key : α → Int) (l : List α) : (sortByKey key l).Perm l := by
  induction l with
  | nil => exact List.Perm.refl _
  | cons y ys ih =>
      exact (insertByKey_perm key y (sortByKey key ys)).trans (ih.cons y)

theorem insertByKey_sorted (key : α → Int) (x : α) (l : List α)
    (h : l.Pairwise (fun a b => key a ≤ key b)) :
    (insertByKey key x l).Pairwise (fun a b => key a ≤ key b) := by
  induction l with
  | nil => simp [insertByKey]
  | cons y ys ih =>
      rw [insertByKey]
      rcases List.pairwise_cons.mp h with ⟨hy, hys⟩
      by_cases hk : key y < key x
      · rw [if_pos hk]
        refine List.pairwise_cons.mpr ⟨?_, ih hys⟩
        intro a ha
        rcases List.mem_cons.mp ((insertByKey_perm key x ys).mem_iff.mp ha) with h1 | h1
        · subst h1; omega
        · exact hy a h1
      · rw [if_neg hk]
        refine List.pairwise_cons.mpr ⟨?_, h⟩
        intro a ha
        rcases List.mem_cons.mp ha with h1 | h1
        · subst h1; omega
        · exact le_trans (by omega) (hy a h1)

theorem sortByKey_sorted (key : α → Int) (l : List α) :
    (sortByKey key l).Pairwise (fun a b => key a ≤ key b) := by
  induction l with
  | nil => simp [sortByKey]
  | cons y ys ih => exact insertByKey_sorted key y _ ih

/-- A list already weakly sorted by `key` is left unchanged (this is where the
stability of the JavaScript sort matters). -/
theorem sortByKey_of_sorted (key : α → Int) (l : List α)
    (h : l.Pairwise (fun a b => key a ≤ key b)) : sortByKey key l = l := by
  induction l with
  | nil => rfl
  | cons y ys ih =>
      rcases List.pairwise_cons.mp h with ⟨hy, hys⟩
      have : sortByKey key (y :: ys) = insertByKey key y (sortByKey key ys) := rfl
      rw [this, ih hys]
      cases ys with
      | nil => rfl
      | cons z zs =>
          rw [insertByKey, if_neg ?_]
          have := hy z (by simp)
          omega

/-! ## Helper lemmas: `slugify` -/

theorem replaceSpaceRuns_no_space (b : Bool) (l : List Char) (h : ∀ c ∈ l, c ≠ ' ') :
    replaceSpaceRuns b l = l := by
  induction l generalizing b with
  | nil => rfl
  | cons c rest ih =>
      rw [replaceSpaceRuns, if_neg (h c (List.mem_cons_self c rest))]
      rw [ih false (fun d hd => h d (List.mem_cons_of_mem c hd))]

/-- The lowering used inside `slugify` agrees with `String.toLower`. -/
theorem slugify_toLower (text : String) :
    slugify text =
      ⟨replaceSpaceRuns false
        ((text.toLower.data).filter (fun c => isWordChar c || c = ' '))⟩ := by
  have : text.toLower.data = text.data.map Char.toLower := by
    show (String.map Char.toLower text).data = _
    rw [String.map_eq]
  rw [this]
  rfl

/-- On a string without spaces, `slugify` is the lowering followed by the
word-character filter. -/
theorem slugify_data_no_space (x : String) (h : ∀ c ∈ x.data, c ≠ ' ') :
    (slugify x).data = (x.data.map Char.toLower).filter (fun c => isWordChar c || c = ' ') := by
  have hlow : ∀ c ∈ x.data.map Char.toLower, c ≠ ' ' := by
    intro c hc
    rcases List.mem_map.mp hc with ⟨d, hd, rfl⟩
    intro hsp
    exact h d hd ((toLower_space_iff d).mp hsp)
  have hfil : ∀ c ∈ (x.data.map Char.toLower).filter (fun c => isWordChar c || c = ' '),
      c ≠ ' ' := by
    intro c hc
    exact hlow c (List.mem_of_mem_filter hc)
  show replaceSpaceRuns false ((x.data.map Char.toLower).filter _) = _
  rw [replaceSpaceRuns_no_space _ _ hfil]

/-! ## Helper lemmas: snapshot fetchers -/

theorem getCommitContent_aux (readFile : String → Option String) (l : List String)
    (acc : ContentMap × List String) :
    l.foldl (commitReadStep readFile) acc =
      (acc.1 ++ l.filterMap (fun f => (readFile f).map (fun txt => (f, txt))),
        acc.2 ++ l.filter (fun f => (readFile f).isNone)) := by
  induction l generalizing acc with
  | nil => simp
  | cons f rest ih =>
      rw [List.foldl_cons, ih]
      rcases hr : readFile f with _ | txt
      · simp [commitReadStep, hr, List.filterMap_cons, List.filter_cons]
      · simp [commitReadStep, hr, List.filterMap_cons, List.filter_cons]

/-- Full characterization of `getCommitContent`: the content map holds exactly the
readable non-excluded files in listing order; the warnings are exactly the
unreadable non-excluded files. -/
theorem getCommitContent_eq (files : List String) (readFile : String → Option String) :
    getCommitContent files readFile =
      ((files.filter (fun f => !(isExcludedCommitFile f))).filterMap
          (fun f => (readFile f).map (fun txt => (f, txt))),
        (files.filter (fun f => !(isExcludedCommitFile f))).filter
          (fun f => (readFile f).isNone)) := by
  rw [getCommitContent, getCommitContent_aux]
  simp

mutual

/-- Full characterization of one traversal entry of `readFilesRecursively`. -/
theorem readEntry_eq (pre : String) (e : FsEntry) :
    readEntry pre e =
      ((filesOfEntry pre e).filterMap includeFile,
        (filesOfEntry pre e).filterMap warnFile) := by
  cases e with
  | file name c =>
      simp only [readEntry.eq_def, filesOfEntry]
      by_cases h : isExcludedDirFile name
      · rw [if_pos h]
        simp [includeFile, warnFile, h]
      · rw [if_neg h]
        cases c with
        | none => simp [includeFile, warnFile, h]
        | some txt => simp [includeFile, warnFile, h]
  | dir name es =>
      simp only [readEntry.eq_def, filesOfEntry]
      exact readEntries_eq (joinPath pre name) es

/-- Full characterization of `readFilesRecursively`: the content map holds exactly
the readable files whose name passes the exclusion filter, in traversal order,
keyed by relative path; the warnings are exactly the unreadable such files. -/
theorem readEntries_eq (pre : String) (es : List FsEntry) :
    readEntries pre es =
      ((filesOfEntries pre es).filterMap includeFile,
        (filesOfEntries pre es).filterMap warnFile) := by
  cases es with
  | nil => rfl
  | cons e rest =>
      rw [readEntries, filesOfEntries]
      rw [readEntry_eq pre e, readEntries_eq pre rest]
      simp

end

mutual

/-- Every relative path of a flattened entry decomposes as prefix-joined-name. -/
theorem filesOfEntry_path (pre : String) (e : FsEntry) :
    ∀ x ∈ filesOfEntry pre e, ∃ p, x.1 = joinPath p x.2.1 := by
  cases e with
  | file name c =>
      intro x hx
      rw [filesOfEntry] at hx
      rcases List.mem_singleton.mp hx with rfl
      exact ⟨pre, rfl⟩
  | dir name es =>
      intro x hx
      rw [filesOfEntry] at hx
      exact filesOfEntries_path (joinPath pre name) es x hx

/-- Every relative path in the flattened tree decomposes as prefix-joined-name. -/
theorem filesOfEntries_path (pre : String) (es : List FsEntry) :
    ∀ x ∈ filesOfEntries pre es, ∃ p, x.1 = joinPath p x.2.1 := by
  cases es with
  | nil => intro x hx; cases hx
  | cons e rest =>
      intro x hx
      rw [filesOfEntries] at hx
      rcases List.mem_append.mp hx with h | h
      · exact filesOfEntry_path pre e x h
      · exact filesOfEntries_path pre rest x h

end

/-! ## Helper lemmas: distribution over a single section -/

theorem advanceSection_singleton (commits : List GitCommit) (sec : Section) (cur : Nat)
    (li : Int) : advanceSection commits [sec] cur li = cur := by
  have henum : ([sec] : List Section).enum = [(0, sec)] := rfl
  rw [advanceSection, henum, List.foldl_cons, List.foldl_nil, if_neg]
  rintro ⟨h1, _⟩
  omega

theorem distribute_singleton (commits : List GitCommit) (sec : Section)
    (ls : List Lesson) :
    ∃ newLessons : List Lesson,
      distribute commits 0 [sec] ls = [{ sec with lessons := sec.lessons ++ newLessons }] ∧
        newLessons.length = ls.length := by
  induction ls generalizing sec with
  | nil =>
      refine ⟨[], ?_, rfl⟩
      show [sec] = _
      simp
  | cons l rest ih =>
      rw [distribute, advanceSection_singleton]
      have hpush : pushLesson [sec] 0 l =
          [{ sec with lessons := sec.lessons ++ [{ l with order := sec.lessons.length + 1 }] }] := rfl
      rw [hpush]
      rcases ih { sec with lessons := sec.lessons ++ [{ l with order := sec.lessons.length + 1 }] }
        with ⟨nl, hnl, hlen⟩
      refine ⟨{ l with order := sec.lessons.length + 1 } :: nl, ?_, by simpa using hlen⟩
      rw [hnl]
      simp

/-! ## Helper lemmas: general list facts -/

theorem append_singleton_perm {α : Type _} (A B : List α) (x : α) :
    ((A ++ [x]) ++ B).Perm ((A ++ B) ++ [x]) := by
  rw [List.append_assoc, List.append_assoc]
  exact List.Perm.append_left A List.perm_append_comm

theorem two_le_length_of_mem_ne {α : Type _} {L : List α} {a b : α}
    (ha : a ∈ L) (hb : b ∈ L) (hne : a ≠ b) : 2 ≤ L.length := by
  induction L with
  | nil => cases ha
  | cons c rest ih =>
      rcases List.mem_cons.mp ha with rfl | ha'
      · rcases List.mem_cons.mp hb with rfl | hb'
        · exact absurd rfl hne
        · have := List.length_pos.mpr (List.ne_nil_of_mem hb')
          simp only [List.length_cons]
          omega
      · have := List.length_pos.mpr (List.ne_nil_of_mem ha')
        simp only [List.length_cons]
        omega

theorem countP_le_one_unique {α : Type _} {L : List α} {p : α → Bool} {a b : α}
    (hc : L.countP p ≤ 1) (ha : a ∈ L) (hb : b ∈ L) (hpa : p a) (hpb : p b) : a = b := by
  by_contra hne
  have ha' : a ∈ L.filter p := List.mem_filter.mpr ⟨ha, hpa⟩
  have hb' : b ∈ L.filter p := List.mem_filter.mpr ⟨hb, hpb⟩
  have := two_le_length_of_mem_ne ha' hb' hne
  rw [List.countP_eq_length_filter] at hc
  omega

/-! ## Helper lemmas: `pushLesson`, `advanceSection` and `distribute` -/

theorem pairTemplate_fields (sols : List TaggedCommit) (t : TaggedCommit) :
    (pairTemplate sols t).templateHash = some t.hash ∧
      (pairTemplate sols t).type = .templateSolution ∧
      (pairTemplate sols t).sourceHash = none ∧
      (pairTemplate sols t).solutionHash =
        (sols.find? (fun s => strTrim s.message == strTrim t.message)).map
          (fun s => s.hash) ∧
      (pairTemplate sols t).solutionContent = none ∧
      (pairTemplate sols t).title = t.message := by
  cases hfind : sols.find? (fun s => strTrim s.message == strTrim t.message) <;>
    simp [pairTemplate, hfind]

theorem flattenLessons_nil : flattenLessons [] = [] := rfl

theorem flattenLessons_cons (s : Section) (rest : List Section) :
    flattenLessons (s :: rest) = s.lessons ++ flattenLessons rest := rfl

theorem pushLesson_length (secs : List Section) (i : Nat) (l : Lesson) :
    (pushLesson secs i l).length = secs.length :=
  List.length_modify _ _ _

theorem flatten_pushLesson_perm (secs : List Section) (i : Nat) (l : Lesson)
    (hi : i < secs.length) :
    ∃ n, (flattenLessons (pushLesson secs i l)).Perm
      (flattenLessons secs ++ [{ l with order := n }]) := by
  induction secs generalizing i with
  | nil => cases hi
  | cons s rest ih =>
      cases i with
      | zero =>
          refine ⟨s.lessons.length + 1, ?_⟩
          have hpush : pushLesson (s :: rest) 0 l =
              { s with lessons :=
                  s.lessons ++ [{ l with order := s.lessons.length + 1 }] } :: rest := rfl
          rw [hpush, flattenLessons_cons, flattenLessons_cons]
          exact append_singleton_perm s.lessons (flattenLessons rest) _
      | succ j =>
          have hj : j < rest.length := by simpa using hi
          have hpush : pushLesson (s :: rest) (j + 1) l = s :: pushLesson rest j l := rfl
          rcases ih j hj with ⟨n, hp⟩
          refine ⟨n, ?_⟩
          rw [hpush, flattenLessons_cons, flattenLessons_cons, List.append_assoc]
          exact List.Perm.append_left s.lessons hp

theorem foldl_pick_lt {len : Nat} (C : Nat × Section → Prop) [DecidablePred C] :
    ∀ (l : List (Nat × Section)) (init : Nat), init < len → (∀ p ∈ l, p.1 < len) →
      l.foldl (fun c p => if C p then p.1 else c) init < len := by
  intro l
  induction l with
  | nil =>
      intro init h _
      simpa using h
  | cons p ps ih =>
      intro init hinit hmem
      rw [List.foldl_cons]
      apply ih
      · split
        · exact hmem p (List.mem_cons_self _ _)
        · exact hinit
      · intro q hq
        exact hmem q (List.mem_cons_of_mem _ hq)

theorem advanceSection_lt (commits : List GitCommit) (secs : List Section) (cur : Nat)
    (li : Int) (hcur : cur < secs.length) :
    advanceSection commits secs cur li < secs.length := by
  rw [advanceSection]
  exact foldl_pick_lt
    (fun p => cur + 1 ≤ p.1 ∧ -1 < commitIndexOf commits p.2.hash ∧
      commitIndexOf commits p.2.hash < li)
    secs.enum cur hcur (fun p hp => List.fst_lt_of_mem_enum hp)

theorem distribute_countP (commits : List GitCommit) (p : Lesson → Bool)
    (hp : ∀ (x : Lesson) (n : Nat), p { x with order := n } = p x) :
    ∀ (ls : List Lesson) (cur : Nat) (secs : List Section), cur < secs.length →
      (flattenLessons (distribute commits cur secs ls)).countP p =
        (flattenLessons secs).countP p + ls.countP p := by
  intro ls
  induction ls with
  | nil =>
      intro cur secs _
      simp [distribute]
  | cons l rest ih =>
      intro cur secs hcur
      rw [distribute]
      have hlt := advanceSection_lt commits secs cur (commitIndexOf commits (lessonHash l)) hcur
      rcases flatten_pushLesson_perm secs
          (advanceSection commits secs cur (commitIndexOf commits (lessonHash l))) l hlt
        with ⟨n, hperm⟩
      rw [ih _ (pushLesson secs _ l) (by rw [pushLesson_length]; exact hlt)]
      rw [hperm.countP_eq, List.countP_append, List.countP_cons]
      simp only [List.countP_cons, List.countP_nil, hp l n]
      omega

theorem distribute_mem (commits : List GitCommit) :
    ∀ (ls : List Lesson) (cur : Nat) (secs : List Section), cur < secs.length →
      ∀ y ∈ flattenLessons (distribute commits cur secs ls),
        y ∈ flattenLessons secs ∨ ∃ x ∈ ls, ∃ n, y = { x with order := n } := by
  intro ls
  induction ls with
  | nil =>
      intro cur secs _ y hy
      rw [distribute] at hy
      exact Or.inl hy
  | cons l rest ih =>
      intro cur secs hcur y hy
      rw [distribute] at hy
      have hlt := advanceSection_lt commits secs cur (commitIndexOf commits (lessonHash l)) hcur
      rcases flatten_pushLesson_perm secs
          (advanceSection commits secs cur (commitIndexOf commits (lessonHash l))) l hlt
        with ⟨n, hperm⟩
      rcases ih _ (pushLesson secs _ l) (by rw [pushLesson_length]; exact hlt) y hy with h1 | h1
      · rcases List.mem_append.mp (hperm.mem_iff.mp h1) with h2 | h2
        · exact Or.inl h2
        · rcases List.mem_singleton.mp h2 with rfl
          exact Or.inr ⟨l, List.mem_cons_self _ _, n, rfl⟩
      · rcases h1 with ⟨x, hx, m, hm⟩
        exact Or.inr ⟨x, List.mem_cons_of_mem _ hx, m, hm⟩

/-! ## Helper lemmas: the classification pass -/

theorem classify_fold_sections (Q : Section → Prop)
    (hnew : ∀ (title : String) (hsh : String) (k : Nat),
      Q { title := title, slug := slugify title, lessons := [], order := k,
          hash := some hsh, stepOrder := none, readmeContent := none }) :
    ∀ (cs : List GitCommit) (acc : ClassifiedCommits),
      (∀ s ∈ acc.sections, Q s) → ∀ s ∈ (cs.foldl classifyCommit acc).sections, Q s := by
  intro cs
  induction cs with
  | nil =>
      intro acc h s hs
      exact h s hs
  | cons c rest ih =>
      intro acc h
      rw [List.foldl_cons]
      apply ih
      intro s hs
      simp only [classifyCommit] at hs
      split at hs
      · exact h s hs
      · split at hs
        · rcases List.mem_append.mp hs with h1 | h1
          · exact h s h1
          · rcases List.mem_singleton.mp h1 with rfl
            exact hnew _ _ _
        · split at hs
          · exact h s hs
          · split at hs
            · exact h s hs
            · split at hs
              · exact h s hs
              · exact h s hs

theorem classify_sections_lessons (commits : List GitCommit) :
    ∀ s ∈ (classifyCommits commits).sections, s.lessons = [] := by
  exact classify_fold_sections (fun s => s.lessons = []) (fun _ _ _ => rfl) commits
    ⟨[], [], [], []⟩ (fun s hs => by cases hs)

theorem flattenLessons_eq_nil {secs : List Section} (h : ∀ s ∈ secs, s.lessons = []) :
    flattenLessons secs = [] := by
  induction secs with
  | nil => rfl
  | cons s rest ih =>
      rw [flattenLessons_cons, h s (List.mem_cons_self _ _),
        ih (fun x hx => h x (List.mem_cons_of_mem _ hx))]
      rfl

theorem classify_hash_count (h : String) :
    ∀ (cs : List GitCommit) (acc : ClassifiedCommits),
      (cs.foldl classifyCommit acc).templateCommits.countP (fun tc => tc.hash == h) +
          (cs.foldl classifyCommit acc).solutionCommits.countP (fun tc => tc.hash == h) +
          (cs.foldl classifyCommit acc).actionCommits.countP (fun tc => tc.hash == h) ≤
        acc.templateCommits.countP (fun tc => tc.hash == h) +
            acc.solutionCommits.countP (fun tc => tc.hash == h) +
            acc.actionCommits.countP (fun tc => tc.hash == h) +
          cs.countP (fun c => c.hash == h) := by
  intro cs
  induction cs with
  | nil =>
      intro acc
      simp
  | cons c rest ih =>
      intro acc
      rw [List.foldl_cons, List.countP_cons]
      have hstep :
          (classifyCommit acc c).templateCommits.countP (fun tc => tc.hash == h) +
              (classifyCommit acc c).solutionCommits.countP (fun tc => tc.hash == h) +
              (classifyCommit acc c).actionCommits.countP (fun tc => tc.hash == h) ≤
            acc.templateCommits.countP (fun tc => tc.hash == h) +
                acc.solutionCommits.countP (fun tc => tc.hash == h) +
                acc.actionCommits.countP (fun tc => tc.hash == h) +
              (if (c.hash == h) = true then 1 else 0) := by
        simp only [classifyCommit]
        split
        · omega
        · split
          · dsimp only
            omega
          · split
            · dsimp only
              simp only [List.countP_append, List.countP_cons, List.countP_nil]
              split <;> omega
            · split
              · dsimp only
                simp only [List.countP_append, List.countP_cons, List.countP_nil]
                split <;> omega
              · split
                · dsimp only
                  simp only [List.countP_append, List.countP_cons, List.countP_nil]
                  split <;> omega
                · omega
      have := ih (classifyCommit acc c)
      omega

/-- With pairwise-distinct commit hashes, each hash shows up at most once in the
commit list. -/
theorem nodup_hash_countP (commits : List GitCommit)
    (hn : (commits.map (fun c => c.hash)).Nodup) (h : String) :
    commits.countP (fun c => c.hash == h) ≤ 1 := by
  have h1 : commits.countP (fun c => c.hash == h) =
      (commits.map (fun c => c.hash)).countP (fun x => x == h) := by
    rw [List.countP_map]
    rfl
  rw [h1, ← List.count_eq_countP]
  exact List.nodup_iff_count_le_one.mp hn h

/-! ## Helper lemmas: steps-mode distribution -/

theorem pairTemplateStep_fields (sols : List Step) (t : Step) :
    (pairTemplateStep sols t).templateStep = some t ∧
      (pairTemplateStep sols t).type = .templateSolution ∧
      (pairTemplateStep sols t).solutionStep = sols.find? (fun s => s.dir == t.dir + 1) ∧
      (pairTemplateStep sols t).solutionContent = none ∧
      (pairTemplateStep sols t).sourceStep = none ∧
      (pairTemplateStep sols t).order = t.order ∧
      (pairTemplateStep sols t).title = t.title := by
  cases hfind : sols.find? (fun s => s.dir == t.dir + 1) <;>
    simp [pairTemplateStep, hfind]

theorem findSectionIndexAux_lt {len : Nat} (order : Nat) :
    ∀ (l : List Section) (i best : Nat), best < len → i + l.length ≤ len →
      findSectionIndexAux order i best l < len := by
  intro l
  induction l with
  | nil =>
      intro i best hbest _
      simpa [findSectionIndexAux] using hbest
  | cons s rest ih =>
      intro i best hbest hlen
      rw [findSectionIndexAux]
      split
      · apply ih (i + 1) i
        · simp only [List.length_cons] at hlen
          omega
        · simp only [List.length_cons] at hlen
          omega
      · exact hbest

theorem findSectionIndex_lt (secs : List Section) (order : Nat) (h : 0 < secs.length) :
    findSectionIndex secs order < secs.length := by
  rw [findSectionIndex]
  exact findSectionIndexAux_lt order secs 0 0 h (by omega)

theorem getD_map_key {β : Type} (f : Section → β) (secs : List Section) (j : Nat)
    (hj : j < secs.length) (d : β) :
    (secs.map f).getD j d = f (secs.getD j default) := by
  rw [List.getD_eq_getElem _ _ (by simpa using hj), List.getD_eq_getElem _ _ hj,
    List.getElem_map]

theorem map_modify_eq {β : Type} (f : Section → β) (g : Section → Section)
    (hfg : ∀ a, f (g a) = f a) (i : Nat) (l : List Section) :
    (List.modify g i l).map f = l.map f := by
  apply List.ext_getElem
  · simp [List.length_modify]
  · intro j h1 h2
    have h3 : j < (List.modify g i l).length := by simpa using h2
    rw [List.getElem_map, List.getElem_map, List.getElem_modify]
    split
    · exact hfg _
    · rfl

theorem enum_pairwise_fst (secs : List Section) :
    secs.enum.Pairwise (fun p q => p.1 < q.1) := by
  rw [List.pairwise_iff_getElem]
  intro i j hi hj hij
  rw [List.getElem_enum, List.getElem_enum]
  simpa using hij

theorem enum_mem_getD (secs : List Section) (j : Nat) (hj : j < secs.length) :
    (j, secs.getD j default) ∈ secs.enum := by
  rw [List.mem_enum_iff_getElem?, List.getD_eq_getElem _ _ hj]
  exact List.getElem?_eq_getElem hj

theorem enum_mem_spec (secs : List Section) (p : Nat × Section) (hp : p ∈ secs.enum) :
    p.1 < secs.length ∧ p.2 = secs.getD p.1 default := by
  rw [List.mem_enum_iff_getElem?] at hp
  rcases List.getElem?_eq_some.mp hp with ⟨h, he⟩
  exact ⟨h, by rw [List.getD_eq_getElem _ _ h, he]⟩

theorem foldl_pick_cases (C : Nat × Section → Prop) [DecidablePred C] :
    ∀ (l : List (Nat × Section)) (init : Nat),
      l.foldl (fun c p => if C p then p.1 else c) init = init ∨
      ∃ p ∈ l, C p ∧ l.foldl (fun c p => if C p then p.1 else c) init = p.1 := by
  intro l
  induction l with
  | nil => intro init; exact Or.inl rfl
  | cons q ps ih =>
      intro init
      rw [List.foldl_cons]
      rcases ih (if C q then q.1 else init) with h | hex
      · by_cases hq : C q
        · exact Or.inr ⟨q, List.mem_cons_self _ _, hq, by rw [h, if_pos hq]⟩
        · exact Or.inl (by rw [h, if_neg hq])
      · rcases hex with ⟨p, hp, hC, he⟩
        exact Or.inr ⟨p, List.mem_cons_of_mem _ hp, hC, he⟩

theorem foldl_pick_ge (C : Nat × Section → Prop) [DecidablePred C] :
    ∀ (l : List (Nat × Section)) (init : Nat),
      (∀ p ∈ l, C p → init ≤ p.1) → l.Pairwise (fun p q => p.1 < q.1) →
      init ≤ l.foldl (fun c p => if C p then p.1 else c) init := by
  intro l
  induction l with
  | nil => intro init _ _; exact le_refl _
  | cons q ps ih =>
      intro init hinit hpw
      rw [List.foldl_cons]
      rcases List.pairwise_cons.mp hpw with ⟨hq, hps⟩
      by_cases hc : C q
      · rw [if_pos hc]
        exact le_trans (hinit q (List.mem_cons_self _ _) hc)
          (ih q.1 (fun p hp _ => le_of_lt (hq p hp)) hps)
      · rw [if_neg hc]
        exact ih init (fun p hp hcp => hinit p (List.mem_cons_of_mem _ hp) hcp) hps

theorem foldl_pick_ub (C : Nat × Section → Prop) [DecidablePred C] :
    ∀ (l : List (Nat × Section)) (init : Nat),
      (∀ p ∈ l, C p → init ≤ p.1) → l.Pairwise (fun p q => p.1 < q.1) →
      ∀ p ∈ l, C p → p.1 ≤ l.foldl (fun c p => if C p then p.1 else c) init := by
  intro l
  induction l with
  | nil => intro init _ _ p hp; cases hp
  | cons q ps ih =>
      intro init hinit hpw p hp hC
      rcases List.pairwise_cons.mp hpw with ⟨hq, hps⟩
      rw [List.foldl_cons]
      rcases List.mem_cons.mp hp with rfl | hp'
      · rw [if_pos hC]
        exact foldl_pick_ge C ps p.1 (fun r hr _ => le_of_lt (hq r hr)) hps
      · refine ih (if C q then q.1 else init) ?_ hps p hp' hC
        intro r hr hCr
        by_cases hcq : C q
        · rw [if_pos hcq]; exact le_of_lt (hq r hr)
        · rw [if_neg hcq]; exact hinit r (List.mem_cons_of_mem _ hr) hCr

theorem advanceSection_ge (commits : List GitCommit) (secs : List Section) (cur : Nat)
    (t : Int) : cur ≤ advanceSection commits secs cur t := by
  rw [advanceSection]
  exact foldl_pick_ge
    (fun p => cur + 1 ≤ p.1 ∧ -1 < commitIndexOf commits p.2.hash ∧
      commitIndexOf commits p.2.hash < t)
    secs.enum cur (fun p _ hC => Nat.le_of_succ_le hC.1) (enum_pairwise_fst secs)

theorem advanceSection_cases (commits : List GitCommit) (secs : List Section) (cur : Nat)
    (t : Int) :
    advanceSection commits secs cur t = cur ∨
    (cur + 1 ≤ advanceSection commits secs cur t ∧
      -1 < commitIndexOf commits
        ((secs.getD (advanceSection commits secs cur t) default).hash) ∧
      commitIndexOf commits
        ((secs.getD (advanceSection commits secs cur t) default).hash) < t) := by
  rcases foldl_pick_cases
      (fun p => cur + 1 ≤ p.1 ∧ -1 < commitIndexOf commits p.2.hash ∧
        commitIndexOf commits p.2.hash < t)
      secs.enum cur with h | hex
  · exact Or.inl h
  · rcases hex with ⟨p, hp, hC, he⟩
    right
    rcases enum_mem_spec secs p hp with ⟨_, hsnd⟩
    have hr : advanceSection commits secs cur t = p.1 := he
    rw [hr, ← hsnd]
    exact ⟨hC.1, hC.2.1, hC.2.2⟩

theorem advanceSection_ub (commits : List GitCommit) (secs : List Section) (cur : Nat)
    (t : Int) (j : Nat) (hj : j < secs.length) (hcj : cur + 1 ≤ j)
    (hpos : -1 < commitIndexOf commits ((secs.getD j default).hash))
    (hlt : commitIndexOf commits ((secs.getD j default).hash) < t) :
    j ≤ advanceSection commits secs cur t := by
  rw [advanceSection]
  exact foldl_pick_ub
    (fun p => cur + 1 ≤ p.1 ∧ -1 < commitIndexOf commits p.2.hash ∧
      commitIndexOf commits p.2.hash < t)
    secs.enum cur (fun p _ hC => Nat.le_of_succ_le hC.1) (enum_pairwise_fst secs)
    (j, secs.getD j default) (enum_mem_getD secs j hj) ⟨hcj, hpos, hlt⟩

theorem distribute_length (commits : List GitCommit) :
    ∀ (ls : List Lesson) (cur : Nat) (secs : List Section),
      (distribute commits cur secs ls).length = secs.length := by
  intro ls
  induction ls with
  | nil => intro cur secs; rfl
  | cons l rest ih =>
      intro cur secs
      simp only [distribute]
      rw [ih, pushLesson_length]

theorem pushLesson_getD_eq (secs : List Section) (i : Nat) (l : Lesson)
    (hi : i < secs.length) :
    (pushLesson secs i l).getD i default =
      { secs.getD i default with lessons := (secs.getD i default).lessons ++
          [{ l with order := (secs.getD i default).lessons.length + 1 }] } := by
  have hi' : i < (pushLesson secs i l).length := by rw [pushLesson_length]; exact hi
  simp only [pushLesson] at hi' ⊢
  rw [List.getD_eq_getElem _ _ hi', List.getD_eq_getElem _ _ hi, List.getElem_modify,
    if_pos rfl]

theorem pushLesson_getD_ne (secs : List Section) (i : Nat) (l : Lesson) (j : Nat)
    (hj : j < secs.length) (hij : i ≠ j) :
    (pushLesson secs i l).getD j default = secs.getD j default := by
  have hj' : j < (pushLesson secs i l).length := by rw [pushLesson_length]; exact hj
  simp only [pushLesson] at hj' ⊢
  rw [List.getD_eq_getElem _ _ hj', List.getD_eq_getElem _ _ hj, List.getElem_modify,
    if_neg hij]

theorem distribute_closest (commits : List GitCommit) (B : List Int) :
    ∀ (ls : List Lesson) (cur : Nat) (secs : List Section),
      secs.map (fun s => commitIndexOf commits s.hash) = B →
      cur < secs.length →
      (∀ j, j < B.length → -1 < B.getD j 0) →
      B.Pairwise (· < ·) →
      ls.Pairwise (fun a b => commitIndexOf commits (lessonHash a) ≤
        commitIndexOf commits (lessonHash b)) →
      (cur = 0 ∨ ∀ x ∈ ls, B.getD cur 0 < commitIndexOf commits (lessonHash x)) →
      (∀ i, i < secs.length → ∀ l ∈ (secs.getD i default).lessons,
        (B.getD i 0 < commitIndexOf commits (lessonHash l) ∧
          ∀ j, j < B.length → B.getD j 0 < commitIndexOf commits (lessonHash l) →
            j ≤ i) ∨
        (i = 0 ∧ commitIndexOf commits (lessonHash l) ≤ B.getD 0 0)) →
      ∀ i, i < secs.length →
        ∀ l ∈ ((distribute commits cur secs ls).getD i default).lessons,
          (B.getD i 0 < commitIndexOf commits (lessonHash l) ∧
            ∀ j, j < B.length → B.getD j 0 < commitIndexOf commits (lessonHash l) →
              j ≤ i) ∨
          (i = 0 ∧ commitIndexOf commits (lessonHash l) ≤ B.getD 0 0) := by
  intro ls
  induction ls with
  | nil =>
      intro cur secs hB hcur hpos hBpw _ _ hcontent i hi l hl
      exact hcontent i hi l hl
  | cons x rest ih =>
      intro cur secs hB hcur hpos hBpw hsorted hinv hcontent i hi l hl
      have hlenB : secs.length = B.length := by rw [← hB, List.length_map]
      have hbp : ∀ j, j < secs.length →
          commitIndexOf commits ((secs.getD j default).hash) = B.getD j 0 := by
        intro j hj
        rw [← hB, getD_map_key (fun s => commitIndexOf commits s.hash) secs j hj 0]
      set t := commitIndexOf commits (lessonHash x) with ht
      set cur' := advanceSection commits secs cur t with hcur'
      have hcl : cur' < secs.length := advanceSection_lt commits secs cur t hcur
      have hge : cur ≤ cur' := advanceSection_ge commits secs cur t
      have hub : ∀ j, j < B.length → B.getD j 0 < t → j ≤ cur' := by
        intro j hj hlt
        by_cases hcj : cur + 1 ≤ j
        · exact advanceSection_ub commits secs cur t j (by omega) hcj
            (by rw [hbp j (by omega)]; exact hpos j hj)
            (by rw [hbp j (by omega)]; exact hlt)
        · omega
      have hzero : ¬ (B.getD cur' 0 < t) → cur' = 0 := by
        intro hnlt
        rcases advanceSection_cases commits secs cur t with heq | hadv
        · rw [← hcur'] at heq
          rcases hinv with h0 | hall
          · omega
          · exfalso
            rw [heq] at hnlt
            exact hnlt (hall x (List.mem_cons_self _ _))
        · exfalso
          rw [← hcur'] at hadv
          exact hnlt (by rw [← hbp cur' hcl]; exact hadv.2.2)
      have hPUSH : (B.getD cur' 0 < t ∧ ∀ j, j < B.length → B.getD j 0 < t → j ≤ cur') ∨
          (cur' = 0 ∧ t ≤ B.getD 0 0) := by
        by_cases hlt : B.getD cur' 0 < t
        · exact Or.inl ⟨hlt, hub⟩
        · have h0 := hzero hlt
          refine Or.inr ⟨h0, ?_⟩
          rw [← h0]
          exact le_of_not_lt hlt
      have hB' : (pushLesson secs cur' x).map (fun s => commitIndexOf commits s.hash) = B := by
        simp only [pushLesson]
        rw [map_modify_eq (fun s => commitIndexOf commits s.hash)
          (fun s => { s with
            lessons := s.lessons ++ [{ x with order := s.lessons.length + 1 }] })
          (fun a => rfl) cur' secs]
        exact hB
      have hcur2 : cur' < (pushLesson secs cur' x).length := by
        rw [pushLesson_length]; exact hcl
      have hhead := (List.pairwise_cons.mp hsorted).1
      have hsorted' := (List.pairwise_cons.mp hsorted).2
      have hinv' : cur' = 0 ∨
          ∀ y ∈ rest, B.getD cur' 0 < commitIndexOf commits (lessonHash y) := by
        by_cases hlt : B.getD cur' 0 < t
        · exact Or.inr (fun y hy => lt_of_lt_of_le hlt (hhead y hy))
        · exact Or.inl (hzero hlt)
      have hcontent' : ∀ i2, i2 < (pushLesson secs cur' x).length →
          ∀ l2 ∈ ((pushLesson secs cur' x).getD i2 default).lessons,
            (B.getD i2 0 < commitIndexOf commits (lessonHash l2) ∧
              ∀ j, j < B.length → B.getD j 0 < commitIndexOf commits (lessonHash l2) →
                j ≤ i2) ∨
            (i2 = 0 ∧ commitIndexOf commits (lessonHash l2) ≤ B.getD 0 0) := by
        intro i2 hi2 l2 hl2
        rw [pushLesson_length] at hi2
        by_cases hci : cur' = i2
        · subst hci
          rw [pushLesson_getD_eq secs cur' x hcl] at hl2
          rcases List.mem_append.mp hl2 with hold | hnew
          · exact hcontent cur' hcl l2 hold
          · have hx : l2 = { x with
                order := (secs.getD cur' default).lessons.length + 1 } :=
              List.mem_singleton.mp hnew
            have hlh : commitIndexOf commits (lessonHash l2) = t := by
              rw [hx, ht]
              rfl
            rw [hlh]
            exact hPUSH
        · rw [pushLesson_getD_ne secs cur' x i2 hi2 hci] at hl2
          exact hcontent i2 hi2 l2 hl2
      simp only [distribute] at hl
      rw [← ht, ← hcur'] at hl
      exact ih cur' (pushLesson secs cur' x) hB' hcur2 hpos hBpw hsorted' hinv' hcontent' i
        (by rw [pushLesson_length]; exact hi) l hl

theorem findSectionIndexAux_eq (o : Nat) :
    ∀ (l : List Section) (i best : Nat),
      findSectionIndexAux o i best l =
        if 0 < (l.takeWhile (fun s => decide (s.stepOrder.getD 0 < o))).length
        then i + (l.takeWhile (fun s => decide (s.stepOrder.getD 0 < o))).length - 1
        else best := by
  intro l
  induction l with
  | nil => intro i best; simp [findSectionIndexAux]
  | cons s rest ih =>
      intro i best
      rw [findSectionIndexAux, List.takeWhile_cons]
      by_cases h : s.stepOrder.getD 0 < o
      · rw [if_pos h, ih, if_pos (decide_eq_true h), List.length_cons,
          if_pos (Nat.succ_pos _)]
        split
        · omega
        · omega
      · rw [if_neg h, if_neg (fun hc => h (of_decide_eq_true hc))]
        simp

theorem takeWhile_getD_true (p : Section → Bool) :
    ∀ (l : List Section) (j : Nat), j < (l.takeWhile p).length →
      p (l.getD j default) = true := by
  intro l
  induction l with
  | nil => intro j hj; simp at hj
  | cons s rest ih =>
      intro j hj
      rw [List.takeWhile_cons] at hj
      by_cases h : p s = true
      · rw [if_pos h, List.length_cons] at hj
        cases j with
        | zero => rw [List.getD_cons_zero]; exact h
        | succ k =>
            rw [List.getD_cons_succ]
            exact ih k (by omega)
      · rw [if_neg h] at hj
        simp at hj

theorem takeWhile_getD_false (p : Section → Bool) :
    ∀ (l : List Section), (l.takeWhile p).length < l.length →
      p (l.getD (l.takeWhile p).length default) = false := by
  intro l
  induction l with
  | nil => intro h; simp at h
  | cons s rest ih =>
      intro h
      rw [List.takeWhile_cons] at h ⊢
      by_cases hs : p s = true
      · rw [if_pos hs] at h ⊢
        simp only [List.length_cons] at h ⊢
        rw [List.getD_cons_succ]
        exact ih (by omega)
      · rw [if_neg hs] at h ⊢
        simp only [List.length_nil]
        rw [List.getD_cons_zero]
        simpa using hs

theorem findSectionIndex_spec (secs : List Section) (o : Nat) (hlen : 0 < secs.length)
    (hmono : (secs.map (fun s => s.stepOrder.getD 0)).Pairwise (· < ·)) :
    ((secs.getD (findSectionIndex secs o) default).stepOrder.getD 0 < o ∧
      ∀ j, j < secs.length → (secs.getD j default).stepOrder.getD 0 < o →
        j ≤ findSectionIndex secs o) ∨
    (findSectionIndex secs o = 0 ∧ o ≤ (secs.getD 0 default).stepOrder.getD 0) := by
  have hmono' : ∀ a b : Nat, a < b → b < secs.length →
      (secs.getD a default).stepOrder.getD 0 <
        (secs.getD b default).stepOrder.getD 0 := by
    intro a b hab hb
    have ha : a < secs.length := lt_trans hab hb
    have hpw := List.pairwise_iff_getElem.mp hmono a b (by simpa using ha)
      (by simpa using hb) hab
    rw [List.getElem_map, List.getElem_map] at hpw
    rw [List.getD_eq_getElem _ _ ha, List.getD_eq_getElem _ _ hb]
    simpa using hpw
  have hfi : findSectionIndex secs o =
      if 0 < (secs.takeWhile (fun s => decide (s.stepOrder.getD 0 < o))).length
      then 0 + (secs.takeWhile (fun s => decide (s.stepOrder.getD 0 < o))).length - 1
      else 0 := findSectionIndexAux_eq o secs 0 0
  set run := (secs.takeWhile (fun s => decide (s.stepOrder.getD 0 < o))).length with hrun
  have hrle : run ≤ secs.length := by
    rw [hrun]
    exact (List.takeWhile_sublist _).length_le
  by_cases h0 : 0 < run
  · left
    have hfr : findSectionIndex secs o = run - 1 := by rw [hfi, if_pos h0]; omega
    constructor
    · rw [hfr]
      have hdt := takeWhile_getD_true (fun s => decide (s.stepOrder.getD 0 < o)) secs
        (run - 1) (by omega)
      exact of_decide_eq_true hdt
    · intro j hj hjlt
      rw [hfr]
      by_contra hcon
      push_neg at hcon
      have hrl : run < secs.length := by omega
      have hf := takeWhile_getD_false (fun s => decide (s.stepOrder.getD 0 < o)) secs
        (by omega)
      rw [← hrun] at hf
      have hge : o ≤ (secs.getD run default).stepOrder.getD 0 := by
        by_contra hlt2
        push_neg at hlt2
        have hf2 : decide ((secs.getD run default).stepOrder.getD 0 < o) = false := hf
        rw [decide_eq_true hlt2] at hf2
        cases hf2
      have hle : (secs.getD run default).stepOrder.getD 0 ≤
          (secs.getD j default).stepOrder.getD 0 := by
        rcases Nat.lt_or_ge run j with hlt3 | hge3
        · exact le_of_lt (hmono' run j hlt3 hj)
        · have hrj : run = j := by omega
          rw [hrj]
      omega
  · right
    have hfr : findSectionIndex secs o = 0 := by rw [hfi, if_neg h0]
    have hf := takeWhile_getD_false (fun s => decide (s.stepOrder.getD 0 < o)) secs
      (by omega)
    rw [← hrun] at hf
    have hrun0 : run = 0 := by omega
    rw [hrun0] at hf
    refine ⟨hfr, ?_⟩
    by_contra hlt2
    push_neg at hlt2
    have hf2 : decide ((secs.getD 0 default).stepOrder.getD 0 < o) = false := hf
    rw [decide_eq_true hlt2] at hf2
    cases hf2

theorem findSectionIndexAux_congr (o : Nat) :
    ∀ (l1 l2 : List Section), l1.map Section.stepOrder = l2.map Section.stepOrder →
      ∀ (i best : Nat), findSectionIndexAux o i best l1 = findSectionIndexAux o i best l2 := by
  intro l1
  induction l1 with
  | nil =>
      intro l2 hmap i best
      have h2 : l2 = [] := by
        cases l2 with
        | nil => rfl
        | cons a as => simp at hmap
      rw [h2]
  | cons s rest ih =>
      intro l2 hmap i best
      cases l2 with
      | nil => simp at hmap
      | cons s2 rest2 =>
          simp only [List.map_cons, List.cons.injEq] at hmap
          rw [findSectionIndexAux, findSectionIndexAux, hmap.1]
          split
          · exact ih rest2 hmap.2 (i + 1) i
          · rfl

theorem findSectionIndex_pushLesson (secs : List Section) (k : Nat) (y : Lesson)
    (o : Nat) : findSectionIndex (pushLesson secs k y) o = findSectionIndex secs o := by
  rw [findSectionIndex, findSectionIndex]
  apply findSectionIndexAux_congr
  simp only [pushLesson]
  exact map_modify_eq Section.stepOrder
    (fun s => { s with lessons := s.lessons ++ [{ y with order := s.lessons.length + 1 }] })
    (fun a => rfl) k secs

theorem distributeSteps_mem_mono :
    ∀ (ls : List Lesson) (secs : List Section) (i : Nat), i < secs.length →
      ∀ y ∈ (secs.getD i default).lessons,
        y ∈ ((distributeSteps secs ls).getD i default).lessons := by
  intro ls
  induction ls with
  | nil => intro secs i _ y hy; exact hy
  | cons l rest ih =>
      intro secs i hi y hy
      rw [distributeSteps]
      apply ih (pushLesson secs (findSectionIndex secs l.order) l) i
        (by rw [pushLesson_length]; exact hi)
      by_cases hk : findSectionIndex secs l.order = i
      · rw [hk, pushLesson_getD_eq secs i l hi]
        exact List.mem_append_left _ hy
      · rw [pushLesson_getD_ne secs _ l i hi hk]
        exact hy

theorem distributeSteps_placed :
    ∀ (ls : List Lesson) (secs : List Section), 0 < secs.length →
      ∀ x ∈ ls, ∃ n, { x with order := n } ∈
        ((distributeSteps secs ls).getD (findSectionIndex secs x.order) default).lessons := by
  intro ls
  induction ls with
  | nil => intro secs _ x hx; cases hx
  | cons l rest ih =>
      intro secs hlen x hx
      rw [distributeSteps]
      rcases List.mem_cons.mp hx with rfl | hx'
      · refine ⟨(secs.getD (findSectionIndex secs x.order) default).lessons.length + 1, ?_⟩
        apply distributeSteps_mem_mono rest _ _
          (by rw [pushLesson_length]; exact findSectionIndex_lt secs x.order hlen)
        rw [pushLesson_getD_eq secs _ x (findSectionIndex_lt secs x.order hlen)]
        exact List.mem_append_right _ (List.mem_singleton.mpr rfl)
      · rcases ih (pushLesson secs (findSectionIndex secs l.order) l)
            (by rw [pushLesson_length]; exact hlen) x hx' with ⟨n, hn⟩
        refine ⟨n, ?_⟩
        rw [findSectionIndex_pushLesson secs (findSectionIndex secs l.order) l x.order] at hn
        exact hn

theorem distributeSteps_countP (p : Lesson → Bool)
    (hp : ∀ (x : Lesson) (n : Nat), p { x with order := n } = p x) :
    ∀ (ls : List Lesson) (secs : List Section), 0 < secs.length →
      (flattenLessons (distributeSteps secs ls)).countP p =
        (flattenLessons secs).countP p + ls.countP p := by
  intro ls
  induction ls with
  | nil =>
      intro secs _
      simp [distributeSteps]
  | cons l rest ih =>
      intro secs hpos
      rw [distributeSteps]
      have hlt := findSectionIndex_lt secs l.order hpos
      rcases flatten_pushLesson_perm secs (findSectionIndex secs l.order) l hlt with ⟨n, hperm⟩
      rw [ih (pushLesson secs _ l) (by rw [pushLesson_length]; exact hpos)]
      rw [hperm.countP_eq, List.countP_append, List.countP_cons]
      simp only [List.countP_cons, List.countP_nil, hp l n]
      omega

theorem distributeSteps_mem :
    ∀ (ls : List Lesson) (secs : List Section), 0 < secs.length →
      ∀ y ∈ flattenLessons (distributeSteps secs ls),
        y ∈ flattenLessons secs ∨ ∃ x ∈ ls, ∃ n, y = { x with order := n } := by
  intro ls
  induction ls with
  | nil =>
      intro secs _ y hy
      rw [distributeSteps] at hy
      exact Or.inl hy
  | cons l rest ih =>
      intro secs hpos y hy
      rw [distributeSteps] at hy
      have hlt := findSectionIndex_lt secs l.order hpos
      rcases flatten_pushLesson_perm secs (findSectionIndex secs l.order) l hlt with ⟨n, hperm⟩
      rcases ih (pushLesson secs _ l) (by rw [pushLesson_length]; exact hpos) y hy with h1 | h1
      · rcases List.mem_append.mp (hperm.mem_iff.mp h1) with h2 | h2
        · exact Or.inl h2
        · rcases List.mem_singleton.mp h2 with rfl
          exact Or.inr ⟨l, List.mem_cons_self _ _, n, rfl⟩
      · rcases h1 with ⟨x, hx, m, hm⟩
        exact Or.inr ⟨x, List.mem_cons_of_mem _ hx, m, hm⟩

/-! ## Helper lemmas: the content-fill phase -/

theorem flattenLessons_map_fill (f : Lesson → Lesson) (secs : List Section) :
    flattenLessons (secs.map (fun s => { s with lessons := s.lessons.map f })) =
      (flattenLessons secs).map f := by
  induction secs with
  | nil => rfl
  | cons s rest ih =>
      rw [List.map_cons, flattenLessons_cons, flattenLessons_cons, List.map_append, ih]

theorem fillLessonCommit_keeps (fetch : String → ContentMap) (l : Lesson) :
    (fillLessonCommit fetch l).type = l.type ∧
      (fillLessonCommit fetch l).templateHash = l.templateHash ∧
      (fillLessonCommit fetch l).solutionHash = l.solutionHash ∧
      (fillLessonCommit fetch l).sourceHash = l.sourceHash ∧
      (fillLessonCommit fetch l).templateStep = l.templateStep ∧
      (fillLessonCommit fetch l).solutionStep = l.solutionStep ∧
      (fillLessonCommit fetch l).sourceStep = l.sourceStep ∧
      (fillLessonCommit fetch l).order = l.order ∧
      (fillLessonCommit fetch l).title = l.title ∧
      (fillLessonCommit fetch l).slug = l.slug := by
  rw [fillLessonCommit]
  split
  · cases htm : l.templateHash <;> cases hsol : l.solutionHash <;> simp [htm, hsol]
  · cases hsrc : l.sourceHash <;> simp [hsrc]

theorem fillLessonCommit_solutionContent_none (fetch : String → ContentMap) (l : Lesson)
    (h : l.solutionHash = none) :
    (fillLessonCommit fetch l).solutionContent = l.solutionContent := by
  rw [fillLessonCommit]
  split
  · cases htm : l.templateHash <;> simp [htm, h]
  · cases hsrc : l.sourceHash <;> simp [hsrc]

theorem fillLessonCommit_templateContent_some (fetch : String → ContentMap) (l : Lesson)
    (hsh : String) (hts : l.type = .templateSolution) (h : l.templateHash = some hsh) :
    (fillLessonCommit fetch l).templateContent = some (fetch hsh) := by
  rw [fillLessonCommit, if_pos hts]
  cases hsol : l.solutionHash <;> simp [h, hsol]

theorem fillLessonCommit_solutionContent_some (fetch : String → ContentMap) (l : Lesson)
    (hsh : String) (hts : l.type = .templateSolution) (h : l.solutionHash = some hsh) :
    (fillLessonCommit fetch l).solutionContent = some (fetch hsh) := by
  rw [fillLessonCommit, if_pos hts]
  cases htm : l.templateHash <;> simp [htm, h]

theorem fillLessonStep_keeps (fetch : String → ContentMap) (l : Lesson) :
    (fillLessonStep fetch l).type = l.type ∧
      (fillLessonStep fetch l).templateHash = l.templateHash ∧
      (fillLessonStep fetch l).solutionHash = l.solutionHash ∧
      (fillLessonStep fetch l).sourceHash = l.sourceHash ∧
      (fillLessonStep fetch l).templateStep = l.templateStep ∧
      (fillLessonStep fetch l).solutionStep = l.solutionStep ∧
      (fillLessonStep fetch l).sourceStep = l.sourceStep ∧
      (fillLessonStep fetch l).order = l.order ∧
      (fillLessonStep fetch l).title = l.title ∧
      (fillLessonStep fetch l).slug = l.slug := by
  rw [fillLessonStep]
  split
  · cases htm : l.templateStep <;> cases hsol : l.solutionStep <;> simp [htm, hsol]
  · cases hsrc : l.sourceStep <;> simp [hsrc]

theorem fillLessonStep_solutionContent_none (fetch : String → ContentMap) (l : Lesson)
    (h : l.solutionStep = none) :
    (fillLessonStep fetch l).solutionContent = l.solutionContent := by
  rw [fillLessonStep]
  split
  · cases htm : l.templateStep <;> simp [htm, h]
  · cases hsrc : l.sourceStep <;> simp [hsrc]

theorem fillLessonStep_templateContent_some (fetch : String → ContentMap) (l : Lesson)
    (st : Step) (hts : l.type = .templateSolution) (h : l.templateStep = some st) :
    (fillLessonStep fetch l).templateContent = some (fetch st.path) := by
  rw [fillLessonStep, if_pos hts]
  cases hsol : l.solutionStep <;> simp [h, hsol]

theorem fillLessonStep_solutionContent_some (fetch : String → ContentMap) (l : Lesson)
    (st : Step) (hts : l.type = .templateSolution) (h : l.solutionStep = some st) :
    (fillLessonStep fetch l).solutionContent = some (fetch st.path) := by
  rw [fillLessonStep, if_pos hts]
  cases htm : l.templateStep <;> simp [htm, h]

theorem find?_first {α : Type _} (p : α → Bool) :
    ∀ (l : List α) (a : α), l.find? p = some a →
      ∃ l₁ l₂, l = l₁ ++ a :: l₂ ∧ ∀ x ∈ l₁, ¬ p x := by
  intro l
  induction l with
  | nil => intro a h; cases h
  | cons b rest ih =>
      intro a h
      rw [List.find?_cons] at h
      cases hb : p b with
      | true =>
          rw [hb] at h
          rcases Option.some_inj.mp h with rfl
          exact ⟨[], rest, rfl, by simp⟩
      | false =>
          rw [hb] at h
          rcases ih a h with ⟨l₁, l₂, rfl, hfst⟩
          refine ⟨b :: l₁, l₂, rfl, ?_⟩
          intro x hx
          rcases List.mem_cons.mp hx with rfl | hx'
          · simp [hb]
          · exact hfst x hx'

theorem secs0_flatten_nil (commits : List GitCommit) :
    flattenLessons (if (classifyCommits commits).sections.isEmpty then [defaultSection]
      else (classifyCommits commits).sections) = [] := by
  split
  · rfl
  · exact flattenLessons_eq_nil (classify_sections_lessons commits)

theorem secs0_length_pos (commits : List GitCommit) :
    0 < (if (classifyCommits commits).sections.isEmpty then [defaultSection]
      else (classifyCommits commits).sections).length := by
  split
  · simp
  · next hne => exact List.length_pos.mpr (fun hnil => hne (by simp [hnil]))

/-- With pairwise-distinct commit hashes, at most one classified template commit
carries a given hash. -/
theorem templates_hash_countP_le_one (commits : List GitCommit)
    (hn : (commits.map (fun c => c.hash)).Nodup) (h : String) :
    (classifyCommits commits).templateCommits.countP (fun tc => tc.hash == h) ≤ 1 := by
  have hc := classify_hash_count h commits ⟨[], [], [], []⟩
  have h1 := nodup_hash_countP commits hn h
  have he : classifyCommits commits = commits.foldl classifyCommit ⟨[], [], [], []⟩ := rfl
  rw [he]
  simp only [List.countP_nil] at hc
  omega

/-- With pairwise-distinct commit hashes, a classified solution commit's hash never
shows up among the classified template or action commits. -/
theorem solution_hash_disjoint (commits : List GitCommit)
    (hn : (commits.map (fun c => c.hash)).Nodup) (s : TaggedCommit)
    (hs : s ∈ (classifyCommits commits).solutionCommits) :
    (∀ tc ∈ (classifyCommits commits).templateCommits, tc.hash ≠ s.hash) ∧
      (∀ ac ∈ (classifyCommits commits).actionCommits, ac.hash ≠ s.hash) := by
  have hc := classify_hash_count s.hash commits ⟨[], [], [], []⟩
  have h1 := nodup_hash_countP commits hn s.hash
  have he : classifyCommits commits = commits.foldl classifyCommit ⟨[], [], [], []⟩ := rfl
  simp only [List.countP_nil] at hc
  have hsol : 1 ≤ (classifyCommits commits).solutionCommits.countP
      (fun tc => tc.hash == s.hash) := by
    have : 0 < (classifyCommits commits).solutionCommits.countP
        (fun tc => tc.hash == s.hash) :=
      List.countP_pos_iff.mpr ⟨s, hs, by simp⟩
    omega
  rw [he] at hsol ⊢
  constructor
  · intro tc htc heq
    have : 0 < (commits.foldl classifyCommit ⟨[], [], [], []⟩).templateCommits.countP
        (fun x => x.hash == s.hash) :=
      List.countP_pos_iff.mpr ⟨tc, htc, by simp [heq]⟩
    omega
  · intro ac hac heq
    have : 0 < (commits.foldl classifyCommit ⟨[], [], [], []⟩).actionCommits.countP
        (fun x => x.hash == s.hash) :=
      List.countP_pos_iff.mpr ⟨ac, hac, by simp [heq]⟩
    omega

/-- With pairwise-distinct commit hashes, at most one classified solution commit
carries a given hash. -/
theorem solutions_hash_countP_le_one (commits : List GitCommit)
    (hn : (commits.map (fun c => c.hash)).Nodup) (h : String) :
    (classifyCommits commits).solutionCommits.countP (fun tc => tc.hash == h) ≤ 1 := by
  have hc := classify_hash_count h commits ⟨[], [], [], []⟩
  have h1 := nodup_hash_countP commits hn h
  have he : classifyCommits commits = commits.foldl classifyCommit ⟨[], [], [], []⟩ := rfl
  rw [he]
  simp only [List.countP_nil] at hc
  omega

/-- Sections coming out of `buildSections` start with no lessons. -/
theorem buildSections_lessons_aux : ∀ (l : List Step) (acc : List Section),
    (∀ sec ∈ acc, sec.lessons = []) →
    ∀ sec ∈ l.foldl (fun secs s => secs ++
      [{ title := s.title, slug := slugify s.title, lessons := [],
         order := secs.length + 1, hash := none,
         stepOrder := some s.order, readmeContent := some s.readmeContent }]) acc,
      sec.lessons = [] := by
  intro l
  induction l with
  | nil =>
      intro acc h sec hs
      exact h sec hs
  | cons st rest ih =>
      intro acc h
      rw [List.foldl_cons]
      apply ih
      intro sec hs
      rcases List.mem_append.mp hs with h1 | h1
      · exact h sec h1
      · rcases List.mem_singleton.mp h1 with rfl
        rfl

theorem buildSections_lessons (l : List Step) :
    ∀ sec ∈ buildSections l, sec.lessons = [] :=
  buildSections_lessons_aux l [] (fun _ hs => by cases hs)

/-! ## Helper lemmas: contiguous 1-based `order` fields -/

/-- Appending an element whose projection is `length + 1` keeps the projection a
contiguous 1-based sequence over positions. -/
theorem contiguous_append {α : Type _} (f : α → Nat) {l : List α} {x : α}
    (h : ∀ j (hj : j < l.length), f (l[j]) = j + 1) (hx : f x = l.length + 1) :
    ∀ j (hj : j < (l ++ [x]).length), f ((l ++ [x])[j]) = j + 1 := by
  intro j hj
  rw [List.length_append] at hj
  by_cases hl : j < l.length
  · rw [List.getElem_append_left hl]
    exact h j hl
  · have hje : j = l.length := by
      simp only [List.length_singleton] at hj
      omega
    subst hje
    rw [List.getElem_append_right (le_refl _)]
    simpa using hx

theorem classify_sections_orders : ∀ (cs : List GitCommit) (acc : ClassifiedCommits),
    (∀ i (hi : i < acc.sections.length), (acc.sections)[i].order = i + 1) →
    ∀ i (hi : i < (cs.foldl classifyCommit acc).sections.length),
      ((cs.foldl classifyCommit acc).sections)[i].order = i + 1 := by
  intro cs
  induction cs with
  | nil =>
      intro acc h i hi
      exact h i hi
  | cons c rest ih =>
      intro acc h
      rw [List.foldl_cons]
      apply ih
      simp only [classifyCommit]
      split
      · exact h
      · split
        · exact contiguous_append Section.order h rfl
        · split
          · exact h
          · split
            · exact h
            · split
              · exact h
              · exact h

theorem buildSections_orders : ∀ (l : List Step) (acc : List Section),
    (∀ i (hi : i < acc.length), acc[i].order = i + 1) →
    ∀ i (hi : i < (l.foldl (fun secs s => secs ++
      [{ title := s.title, slug := slugify s.title, lessons := [],
         order := secs.length + 1, hash := none,
         stepOrder := some s.order, readmeContent := some s.readmeContent }]) acc).length),
      ((l.foldl (fun secs s => secs ++
        [{ title := s.title, slug := slugify s.title, lessons := [],
           order := secs.length + 1, hash := none,
           stepOrder := some s.order, readmeContent := some s.readmeContent }]) acc))[i].order
        = i + 1 := by
  intro l
  induction l with
  | nil =>
      intro acc h i hi
      exact h i hi
  | cons st rest ih =>
      intro acc h
      rw [List.foldl_cons]
      apply ih
      exact contiguous_append Section.order h rfl

theorem buildSections_stepOrders : ∀ (l : List Step) (acc : List Section),
    ((l.foldl (fun secs s => secs ++
      [{ title := s.title, slug := slugify s.title, lessons := [],
         order := secs.length + 1, hash := none,
         stepOrder := some s.order, readmeContent := some s.readmeContent }]) acc)).map
        (fun sec => sec.stepOrder) =
      acc.map (fun sec => sec.stepOrder) ++ l.map (fun s => some s.order) := by
  intro l
  induction l with
  | nil =>
      intro acc
      simp
  | cons st rest ih =>
      intro acc
      rw [List.foldl_cons, ih]
      simp

theorem pushLesson_sectionOrders (secs : List Section) (i : Nat) (l : Lesson)
    (h : ∀ j (hj : j < secs.length), secs[j].order = j + 1) :
    ∀ j (hj : j < (pushLesson secs i l).length), (pushLesson secs i l)[j].order = j + 1 := by
  intro j hj
  have hj' : j < secs.length := by
    rw [pushLesson_length] at hj
    exact hj
  simp only [pushLesson] at hj ⊢
  rw [List.getElem_modify]
  split
  · exact h j hj'
  · exact h j hj'

theorem pushLesson_lessonOrders (secs : List Section) (i : Nat) (l : Lesson)
    (h : ∀ sec ∈ secs, ∀ j (hj : j < sec.lessons.length), (sec.lessons)[j].order = j + 1) :
    ∀ sec ∈ pushLesson secs i l, ∀ j (hj : j < sec.lessons.length),
      (sec.lessons)[j].order = j + 1 := by
  intro sec hsec
  rcases List.mem_iff_getElem.mp hsec with ⟨k, hk, hke⟩
  have hk' : k < secs.length := by
    rw [pushLesson_length] at hk
    exact hk
  simp only [pushLesson] at hke
  rw [List.getElem_modify] at hke
  split at hke
  · rw [← hke]
    exact contiguous_append Lesson.order (h secs[k] (List.getElem_mem hk')) rfl
  · rw [← hke]
    exact h secs[k] (List.getElem_mem hk')

theorem distribute_orders (commits : List GitCommit) :
    ∀ (ls : List Lesson) (cur : Nat) (secs : List Section),
      (∀ j (hj : j < secs.length), secs[j].order = j + 1) →
      (∀ sec ∈ secs, ∀ j (hj : j < sec.lessons.length), (sec.lessons)[j].order = j + 1) →
      (∀ j (hj : j < (distribute commits cur secs ls).length),
        (distribute commits cur secs ls)[j].order = j + 1) ∧
      (∀ sec ∈ distribute commits cur secs ls, ∀ j (hj : j < sec.lessons.length),
        (sec.lessons)[j].order = j + 1) := by
  intro ls
  induction ls with
  | nil =>
      intro cur secs h1 h2
      rw [distribute]
      exact ⟨h1, h2⟩
  | cons l rest ih =>
      intro cur secs h1 h2
      rw [distribute]
      exact ih _ _ (pushLesson_sectionOrders _ _ _ h1) (pushLesson_lessonOrders _ _ _ h2)

theorem distributeSteps_orders :
    ∀ (ls : List Lesson) (secs : List Section),
      (∀ j (hj : j < secs.length), secs[j].order = j + 1) →
      (∀ sec ∈ secs, ∀ j (hj : j < sec.lessons.length), (sec.lessons)[j].order = j + 1) →
      (∀ j (hj : j < (distributeSteps secs ls).length),
        (distributeSteps secs ls)[j].order = j + 1) ∧
      (∀ sec ∈ distributeSteps secs ls, ∀ j (hj : j < sec.lessons.length),
        (sec.lessons)[j].order = j + 1) := by
  intro ls
  induction ls with
  | nil =>
      intro secs h1 h2
      rw [distributeSteps]
      exact ⟨h1, h2⟩
  | cons l rest ih =>
      intro secs h1 h2
      rw [distributeSteps]
      exact ih _ (pushLesson_sectionOrders _ _ _ h1) (pushLesson_lessonOrders _ _ _ h2)

theorem fillSections_orders (f : Lesson → Lesson) (hf : ∀ l, (f l).order = l.order)
    (secs : List Section)
    (h1 : ∀ j (hj : j < secs.length), secs[j].order = j + 1)
    (h2 : ∀ sec ∈ secs, ∀ j (hj : j < sec.lessons.length), (sec.lessons)[j].order = j + 1) :
    (∀ j (hj : j < (secs.map (fun s : Section => { s with lessons := s.lessons.map f })).length),
      ((secs.map (fun s : Section => { s with lessons := s.lessons.map f }))[j]).order = j + 1) ∧
    (∀ sec ∈ secs.map (fun s : Section => { s with lessons := s.lessons.map f }),
      ∀ j (hj : j < sec.lessons.length), (sec.lessons)[j].order = j + 1) := by
  constructor
  · intro j hj
    rw [List.getElem_map]
    exact h1 j (by simpa using hj)
  · intro sec hsec
    rcases List.mem_map.mp hsec with ⟨s0, hs0, rfl⟩
    intro j hj
    have hj' : j < s0.lessons.length := by
      have hj2 : j < (s0.lessons.map f).length := hj
      simpa using hj2
    show ((s0.lessons.map f)[j]).order = j + 1
    rw [List.getElem_map, hf]
    exact h2 s0 hs0 j hj'

/-! ## Claim C2 -/

/-- C2, counterexample: `slugify` is NOT idempotent on every title string.  At the
input `"a b"` the first application yields `"a-b"`; the second application strips
the hyphen (a hyphen matches `[^\w ]` and is removed), yielding `"ab"`. -/
theorem claim_C2_counterexample :
    ¬ (slugify (slugify "a b") = slugify "a b") := by decide

/-- C2, amended: `slugify` (deterministic by construction) is idempotent on every
title string that contains no space character: spaces are the only source of the
hyphens that a second application would strip. -/
theorem claim_C2_amended (x : String) (h : ∀ c ∈ x.data, c ≠ ' ') :
    slugify (slugify x) = slugify x := by
  have hdata := slugify_data_no_space x h
  have hmem : ∀ c ∈ (slugify x).data,
      Char.toLower c = c ∧ (isWordChar c || c = ' ') = true ∧ c ≠ ' ' := by
    intro c hc
    rw [hdata] at hc
    have hp := List.of_mem_filter hc
    have hm := List.mem_of_mem_filter hc
    rcases List.mem_map.mp hm with ⟨d, hd, rfl⟩
    refine ⟨toLower_idem d, hp, ?_⟩
    intro hsp
    exact h d hd ((toLower_space_iff d).mp hsp)
  have hns : ∀ c ∈ (slugify x).data, c ≠ ' ' := fun c hc => (hmem c hc).2.2
  have h2 := slugify_data_no_space (slugify x) hns
  have hmap : (slugify x).data.map Char.toLower = (slugify x).data := by
    rw [List.map_congr_left (fun c hc => (hmem c hc).1)]
    exact List.map_id _
  have hfil : ((slugify x).data).filter (fun c => isWordChar c || c = ' ') =
      (slugify x).data :=
    List.filter_eq_self.mpr (fun c hc => (hmem c hc).2.1)
  apply String.ext
  rw [h2, hmap, hfil]

/-- C2, witness for the amended theorem at the spaceless title `"Hello_World1"`. -/
theorem claim_C2_witness :
    (∀ c ∈ ("Hello_World1" : String).data, c ≠ ' ') ∧
      slugify (slugify "Hello_World1") = slugify "Hello_World1" :=
  ⟨by decide, claim_C2_amended "Hello_World1" (by decide)⟩

/-! ## Claim C3 -/

/-- C3, counterexample: in directory-listing mode a file named `.gitignore` DOES
appear in the resulting ContentMap — `getDirectoryContent` (lines 461-465) only
filters names containing the metadata sidecar name or `.gitattributes`, with no
`.gitignore` case. -/
theorem claim_C3_counterexample :
    (".gitignore", "node_modules") ∈
      (getDirectoryContent [FsEntry.file ".gitignore" (some "node_modules")]).1 := by
  decide

/-- C3, amended: both snapshot modes exclude entries whose file name contains
`gitorial_metadata.json` or `.gitattributes`; the exact name `.gitignore` is
additionally excluded in commit-content mode only (directory-listing mode keeps
`.gitignore` files). -/
theorem claim_C3_amended :
    (∀ (files : List String) (readFile : String → Option String),
      ∀ kv ∈ (getCommitContent files readFile).1,
        strContains kv.1 "gitorial_metadata.json" = false ∧
          strContains kv.1 ".gitattributes" = false ∧ kv.1 ≠ ".gitignore") ∧
    (∀ entries : List FsEntry,
      ∀ kv ∈ (getDirectoryContent entries).1,
        ∃ p name, kv.1 = joinPath p name ∧
          strContains name "gitorial_metadata.json" = false ∧
          strContains name ".gitattributes" = false) := by
  constructor
  · intro files readFile kv hkv
    rw [getCommitContent_eq] at hkv
    rcases List.mem_filterMap.mp hkv with ⟨f, hf, hmap⟩
    rcases Option.map_eq_some'.mp hmap with ⟨txt, _, rfl⟩
    have hex := List.of_mem_filter hf
    revert hex
    simp only [isExcludedCommitFile, Bool.not_eq_true']
    intro hex
    rcases Bool.or_eq_false_iff.mp hex with ⟨hex1, hex3⟩
    rcases Bool.or_eq_false_iff.mp hex1 with ⟨h1, h2⟩
    refine ⟨h1, h2, ?_⟩
    intro hgi
    rw [hgi] at hex3
    simp at hex3
  · intro entries kv hkv
    rw [getDirectoryContent, readEntries_eq] at hkv
    rcases List.mem_filterMap.mp hkv with ⟨x, hx, hinc⟩
    rw [includeFile] at hinc
    by_cases hex : isExcludedDirFile x.2.1
    · rw [if_pos hex] at hinc
      cases hinc
    · rw [if_neg hex] at hinc
      rcases Option.map_eq_some'.mp hinc with ⟨c, _, rfl⟩
      rcases filesOfEntries_path "" entries x hx with ⟨p, hp⟩
      have hb : isExcludedDirFile x.2.1 = false := by simpa using hex
      simp only [isExcludedDirFile, Bool.or_eq_false_iff] at hb
      exact ⟨p, x.2.1, hp, hb.1, hb.2⟩

/-- C3, witness for the amended theorem: a regular file passes the commit-mode
filter, and a regular directory-mode entry decomposes with a clean name. -/
theorem claim_C3_witness :
    strContains "main.rs" "gitorial_metadata.json" = false ∧
      strContains "main.rs" ".gitattributes" = false ∧ "main.rs" ≠ ".gitignore" :=
  claim_C3_amended.1 ["main.rs"] (fun _ => some "fn main {}")
    ("main.rs", "fn main {}") (by decide)

/-! ## Claim C8 -/

/-- C8: a file whose read fails is skipped with a recorded warning while the
snapshot completes and keeps every other readable, non-excluded file — in commit
mode (first conjunct: the failing file yields no map entry but a warning, each
readable non-excluded file keeps its entry) and in directory mode (second
conjunct: same, plus every map entry comes from some readable passing file). -/
theorem claim_C8 :
    (∀ (files : List String) (readFile : String → Option String) (f : String),
      f ∈ files → isExcludedCommitFile f = false →
        (readFile f = none →
          (∀ v, (f, v) ∉ (getCommitContent files readFile).1) ∧
            f ∈ (getCommitContent files readFile).2) ∧
          (∀ c, readFile f = some c → (f, c) ∈ (getCommitContent files readFile).1)) ∧
    (∀ entries : List FsEntry,
      (∀ x ∈ filesOfEntries "" entries, isExcludedDirFile x.2.1 = false →
        (∀ c, x.2.2 = some c → (x.1, c) ∈ (getDirectoryContent entries).1) ∧
          (x.2.2 = none → x.1 ∈ (getDirectoryContent entries).2)) ∧
      (∀ kv ∈ (getDirectoryContent entries).1,
        ∃ x ∈ filesOfEntries "" entries,
          isExcludedDirFile x.2.1 = false ∧ x.1 = kv.1 ∧ x.2.2 = some kv.2)) := by
  constructor
  · intro files readFile f hf hex
    constructor
    · intro hnone
      rw [getCommitContent_eq]
      constructor
      · intro v hv
        rcases List.mem_filterMap.mp hv with ⟨g, _, hmap⟩
        rcases Option.map_eq_some'.mp hmap with ⟨txt, hg, heq⟩
        have : g = f := congrArg Prod.fst heq
        rw [this, hnone] at hg
        cases hg
      · apply List.mem_filter.mpr
        refine ⟨List.mem_filter.mpr ⟨hf, by simp [hex]⟩, by simp [hnone]⟩
    · intro c hc
      rw [getCommitContent_eq]
      apply List.mem_filterMap.mpr
      exact ⟨f, List.mem_filter.mpr ⟨hf, by simp [hex]⟩, by simp [hc]⟩
  · intro entries
    constructor
    · intro x hx hex
      constructor
      · intro c hc
        rw [getDirectoryContent, readEntries_eq]
        apply List.mem_filterMap.mpr
        exact ⟨x, hx, by simp [includeFile, hex, hc]⟩
      · intro hc
        rw [getDirectoryContent, readEntries_eq]
        apply List.mem_filterMap.mpr
        exact ⟨x, hx, by simp [warnFile, hex, hc]⟩
    · intro kv hkv
      rw [getDirectoryContent, readEntries_eq] at hkv
      rcases List.mem_filterMap.mp hkv with ⟨x, hx, hinc⟩
      rw [includeFile] at hinc
      by_cases hex : isExcludedDirFile x.2.1
      · rw [if_pos hex] at hinc
        cases hinc
      · rw [if_neg hex] at hinc
        rcases Option.map_eq_some'.mp hinc with ⟨c, hc, heq⟩
        refine ⟨x, hx, Bool.not_eq_true _ ▸ hex, ?_, ?_⟩
        · rw [← heq]
        · rw [hc, ← heq]

/-- C8, witness: one unreadable file among two is warned about and omitted while
the other file's content is kept, in both modes. -/
theorem claim_C8_witness :
    (("bad.txt", "ok") ∉
        (getCommitContent ["good.txt", "bad.txt"]
          (fun f => if f = "bad.txt" then none else some "ok")).1) ∧
      "bad.txt" ∈
        (getCommitContent ["good.txt", "bad.txt"]
          (fun f => if f = "bad.txt" then none else some "ok")).2 ∧
      ("good.txt", "ok") ∈
        (getCommitContent ["good.txt", "bad.txt"]
          (fun f => if f = "bad.txt" then none else some "ok")).1 ∧
      ("a.md", "hello") ∈
        (getDirectoryContent [FsEntry.file "a.md" (some "hello"),
          FsEntry.file "b.md" none]).1 ∧
      "b.md" ∈
        (getDirectoryContent [FsEntry.file "a.md" (some "hello"),
          FsEntry.file "b.md" none]).2 := by
  refine ⟨?_, ?_, ?_, ?_, ?_⟩
  · exact (((claim_C8.1 ["good.txt", "bad.txt"] _ "bad.txt" (by decide) (by decide)).1
      (by decide)).1) "ok"
  · exact ((claim_C8.1 ["good.txt", "bad.txt"] _ "bad.txt" (by decide) (by decide)).1
      (by decide)).2
  · exact (claim_C8.1 ["good.txt", "bad.txt"] _ "good.txt" (by decide) (by decide)).2
      "ok" (by decide)
  · exact ((claim_C8.2 [FsEntry.file "a.md" (some "hello"), FsEntry.file "b.md" none]).1
      ("a.md", "a.md", some "hello") (by decide) (by decide)).1 "hello" rfl
  · exact ((claim_C8.2 [FsEntry.file "a.md" (some "hello"), FsEntry.file "b.md" none]).1
      ("b.md", "b.md", none) (by decide) (by decide)).2 rfl

/-! ## Claim C4 -/

/-- C4: in directory-listing mode a Template step at numeric position `p` gets a
solution attached iff some Solution step sits at numeric position `p + 1`; any
attached solution is a Solution step at `p + 1`, and (for distinct directory
numbers) it is exactly THE step at `p + 1` — title equality plays no role. -/
theorem claim_C4 (steps : List Step) (t : Step) (ht : t ∈ steps)
    (htt : t.type = .template) :
    ((pairTemplateStep ((sortByKey (fun s => (s.dir : Int)) steps).filter
          (fun s => s.type == StepType.solution)) t).solutionStep.isSome = true ↔
        ∃ s ∈ steps, s.type = .solution ∧ s.dir = t.dir + 1) ∧
      (∀ s, (pairTemplateStep ((sortByKey (fun s => (s.dir : Int)) steps).filter
            (fun s => s.type == StepType.solution)) t).solutionStep = some s →
          s ∈ steps ∧ s.type = .solution ∧ s.dir = t.dir + 1) ∧
      ((steps.map (fun s => s.dir)).Nodup →
        ∀ s ∈ steps, s.type = .solution → s.dir = t.dir + 1 →
          (pairTemplateStep ((sortByKey (fun s => (s.dir : Int)) steps).filter
            (fun s => s.type == StepType.solution)) t).solutionStep = some s) ∧
      (pairTemplateStep ((sortByKey (fun s => (s.dir : Int)) steps).filter
          (fun s => s.type == StepType.solution)) t) ∈
        (((sortByKey (fun s => (s.dir : Int)) steps).filter
          (fun s => s.type == StepType.template)).map
            (pairTemplateStep ((sortByKey (fun s => (s.dir : Int)) steps).filter
              (fun s => s.type == StepType.solution)))) := by
  have hperm := sortByKey_perm (fun s => (s.dir : Int)) steps
  have hsols : ∀ s, s ∈ (sortByKey (fun s => (s.dir : Int)) steps).filter
      (fun s => s.type == StepType.solution) ↔ s ∈ steps ∧ s.type = .solution := by
    intro s
    rw [List.mem_filter, hperm.mem_iff, beq_iff_eq]
  refine ⟨?_, ?_, ?_, ?_⟩
  · cases hfind : ((sortByKey (fun s => (s.dir : Int)) steps).filter
        (fun s => s.type == StepType.solution)).find? (fun s => s.dir == t.dir + 1) with
    | none =>
        rw [pairTemplateStep, hfind]
        simp only [Option.isSome_none]
        constructor
        · intro h; cases h
        · rintro ⟨s, hs, hst, hdir⟩
          have hmem := (hsols s).mpr ⟨hs, hst⟩
          have := List.find?_eq_none.mp hfind s hmem
          simp [hdir] at this
    | some s' =>
        rw [pairTemplateStep, hfind]
        simp only [Option.isSome_some, true_iff]
        have hp := List.find?_some hfind
        have hdir : s'.dir = t.dir + 1 := by simpa using hp
        have hmem := (hsols s').mp (List.mem_of_find?_eq_some hfind)
        exact ⟨s', hmem.1, hmem.2, hdir⟩
  · intro s hs
    cases hfind : ((sortByKey (fun s => (s.dir : Int)) steps).filter
        (fun s => s.type == StepType.solution)).find? (fun s => s.dir == t.dir + 1) with
    | none => rw [pairTemplateStep, hfind] at hs; cases hs
    | some s' =>
        rw [pairTemplateStep, hfind] at hs
        have : s' = s := by simpa using hs
        subst this
        have hp := List.find?_some hfind
        have hdir : s'.dir = t.dir + 1 := by simpa using hp
        have hmem := (hsols s').mp (List.mem_of_find?_eq_some hfind)
        exact ⟨hmem.1, hmem.2, hdir⟩
  · intro hnodup s hs hst hdir
    cases hfind : ((sortByKey (fun s => (s.dir : Int)) steps).filter
        (fun s => s.type == StepType.solution)).find? (fun s => s.dir == t.dir + 1) with
    | none =>
        have hmem := (hsols s).mpr ⟨hs, hst⟩
        have := List.find?_eq_none.mp hfind s hmem
        simp [hdir] at this
    | some s' =>
        rw [pairTemplateStep, hfind]
        have hp := List.find?_some hfind
        have hdir' : s'.dir = t.dir + 1 := by simpa using hp
        have hmem := (hsols s').mp (List.mem_of_find?_eq_some hfind)
        have : s' = s :=
          List.inj_on_of_nodup_map hnodup hmem.1 hs (by rw [hdir', hdir])
        rw [this]
  · apply List.mem_map.mpr
    refine ⟨t, ?_, rfl⟩
    rw [List.mem_filter, hperm.mem_iff, beq_iff_eq]
    exact ⟨ht, htt⟩

/-- C4, witness at the sample steps stream: the template at position 2 pairs with
the solution at position 3. -/
theorem claim_C4_witness :
    (pairTemplateStep ((sortByKey (fun s => (s.dir : Int)) sampleSteps).filter
        (fun s => s.type == StepType.solution)) sampleTemplateStep).solutionStep =
      some sampleSolutionStep :=
  (claim_C4 sampleSteps sampleTemplateStep (by decide) (by decide)).2.2.1 (by decide)
    sampleSolutionStep (by decide) (by decide) (by decide)

/-! ## Claim C6 -/

/-- C6: with zero Section markers, commit-history mode synthesizes exactly one
section titled `"Getting Started"` with slug `"getting-started"` holding every
lesson unit (one per template plus one per action), while directory-listing mode
fails with a fatal error and produces no result. -/
theorem claim_C6 :
    (∀ (commits : List GitCommit) (fetch : String → ContentMap),
      (classifyCommits commits).sections = [] →
        ∃ sec, (extractFromCommits commits fetch).sections = [sec] ∧
          sec.title = "Getting Started" ∧ sec.slug = "getting-started" ∧
          sec.lessons.length =
            (classifyCommits commits).templateCommits.length +
              (classifyCommits commits).actionCommits.length) ∧
    (∀ (steps : List Step) (fetch : String → ContentMap),
      (∀ s ∈ steps, s.type ≠ .sec) →
        ∃ msg, extractFromSteps steps fetch = .error msg) := by
  constructor
  · intro commits fetch hsec
    have hif : (if (classifyCommits commits).sections.isEmpty then [defaultSection]
        else (classifyCommits commits).sections) = [defaultSection] := by
      rw [hsec]; rfl
    have hM : commitModeSections commits =
        distribute commits 0 [defaultSection]
          (sortByKey (fun l => commitIndexOf commits (lessonHash l))
            ((classifyCommits commits).templateCommits.map
                (pairTemplate (classifyCommits commits).solutionCommits) ++
              (classifyCommits commits).actionCommits.map actionLesson)) := by
      simp only [commitModeSections]
      rw [hif]
    rcases distribute_singleton commits defaultSection
        (sortByKey (fun l => commitIndexOf commits (lessonHash l))
          ((classifyCommits commits).templateCommits.map
              (pairTemplate (classifyCommits commits).solutionCommits) ++
            (classifyCommits commits).actionCommits.map actionLesson))
      with ⟨nl, hd, hlen⟩
    refine ⟨{ defaultSection with
      lessons := (defaultSection.lessons ++ nl).map (fillLessonCommit fetch) }, ?_, rfl, rfl, ?_⟩
    · show (commitModeSections commits).map _ = _
      rw [hM, hd]
      rfl
    · have hperm := (sortByKey_perm (fun l => commitIndexOf commits (lessonHash l))
        ((classifyCommits commits).templateCommits.map
            (pairTemplate (classifyCommits commits).solutionCommits) ++
          (classifyCommits commits).actionCommits.map actionLesson)).length_eq
      simp only [defaultSection, List.nil_append, List.length_map]
      rw [hlen, hperm]
      simp
  · intro steps fetch hns
    have herr : ∃ m, stepModeSections steps = .error m := by
      simp only [stepModeSections]
      by_cases hempty : (sortByKey (fun s => (s.dir : Int)) steps).isEmpty
      · rw [if_pos hempty]
        exact ⟨_, rfl⟩
      · rw [if_neg hempty]
        have hfil : (sortByKey (fun s => (s.dir : Int)) steps).filter
            (fun s => s.type == StepType.sec) = [] := by
          apply List.filter_eq_nil_iff.mpr
          intro s hs
          simpa using hns s ((sortByKey_perm _ steps).mem_iff.mp hs)
        rw [hfil]
        have hb : (buildSections ([] : List Step)).isEmpty = true := rfl
        rw [if_pos hb]
        exact ⟨_, rfl⟩
    rcases herr with ⟨m, hm⟩
    refine ⟨m, ?_⟩
    show (stepModeSections steps).map _ = _
    rw [hm]
    rfl

/-- C6, witness: a one-template commit stream with no section markers, and a
one-action steps stream with no section steps. -/
theorem claim_C6_witness :
    (∃ sec, (extractFromCommits [{ hash := "h1", message := "template: X" }]
        (fun _ => [])).sections = [sec] ∧
      sec.title = "Getting Started" ∧ sec.slug = "getting-started" ∧
      sec.lessons.length =
        (classifyCommits [{ hash := "h1", message := "template: X" }]).templateCommits.length +
          (classifyCommits [{ hash := "h1", message := "template: X" }]).actionCommits.length) ∧
    (∃ msg, extractFromSteps [sampleActionStep] (fun _ => []) = .error msg) :=
  ⟨claim_C6.1 [{ hash := "h1", message := "template: X" }] (fun _ => []) (by decide),
    claim_C6.2 [sampleActionStep] (fun _ => []) (by decide)⟩

/-! ## Claim C7 -/

/-- C7: a Template with no matching Solution (no equal trimmed title in
commit-history mode; no Solution at numeric position `p + 1` in directory-listing
mode) does not make extraction fail: the output still holds a lesson of the
`template-solution` variant with the primary identity set, no secondary identity
and no secondary content. -/
theorem claim_C7 :
    (∀ (commits : List GitCommit) (fetch : String → ContentMap) (t : TaggedCommit),
      t ∈ (classifyCommits commits).templateCommits →
      (∀ s ∈ (classifyCommits commits).solutionCommits,
        strTrim s.message ≠ strTrim t.message) →
      ∃ y ∈ flattenLessons ((extractFromCommits commits fetch).sections),
        y.type = .templateSolution ∧ y.templateHash = some t.hash ∧
          y.solutionHash = none ∧ y.solutionContent = none) ∧
    (∀ (steps : List Step) (fetch : String → ContentMap) (t : Step) (d : GitorialData),
      t ∈ steps → t.type = .template →
      (∀ s ∈ steps, s.type = .solution → s.dir ≠ t.dir + 1) →
      extractFromSteps steps fetch = .ok d →
      ∃ y ∈ flattenLessons d.sections,
        y.type = .templateSolution ∧ y.templateStep = some t ∧
          y.solutionStep = none ∧ y.solutionContent = none) := by
  constructor
  · intro commits fetch t ht hnomatch
    have hfind : (classifyCommits commits).solutionCommits.find?
        (fun s => strTrim s.message == strTrim t.message) = none := by
      apply List.find?_eq_none.mpr
      intro s hs
      simpa using hnomatch s hs
    set p : Lesson → Bool := fun l =>
      l.templateHash == some t.hash && l.solutionHash == none &&
        l.solutionContent == none && l.type == LessonType.templateSolution with hp_def
    have hp_order : ∀ (x : Lesson) (n : Nat), p { x with order := n } = p x := fun x n => rfl
    have hp_pair : p (pairTemplate (classifyCommits commits).solutionCommits t) = true := by
      rcases pairTemplate_fields (classifyCommits commits).solutionCommits t with
        ⟨h1, h2, _, h4, h5, _⟩
      rw [hp_def]
      simp [h1, h2, h4, h5, hfind]
    have h0 : 0 < (if (classifyCommits commits).sections.isEmpty then [defaultSection]
        else (classifyCommits commits).sections).length := by
      split
      · simp
      · next hne => exact List.length_pos.mpr (fun hnil => hne (by simp [hnil]))
    have hfill : ∀ a : Lesson, p (fillLessonCommit fetch a) = p a := by
      intro a
      rcases fillLessonCommit_keeps fetch a with ⟨k1, k2, k3, _, _, _, _, _, _, _⟩
      by_cases hs : a.solutionHash = none
      · rw [hp_def]
        simp [k1, k2, k3, fillLessonCommit_solutionContent_none fetch a hs]
      · have hb : (a.solutionHash == none) = false := by simpa using hs
        rw [hp_def]
        simp [k1, k2, k3, hb]
    have hM : commitModeSections commits =
        distribute commits 0 (if (classifyCommits commits).sections.isEmpty
            then [defaultSection] else (classifyCommits commits).sections)
          (sortByKey (fun l => commitIndexOf commits (lessonHash l))
            ((classifyCommits commits).templateCommits.map
                (pairTemplate (classifyCommits commits).solutionCommits) ++
              (classifyCommits commits).actionCommits.map actionLesson)) := by
      simp only [commitModeSections]
    have hpos : 0 < (flattenLessons ((extractFromCommits commits fetch).sections)).countP p := by
      have hfinal : flattenLessons ((extractFromCommits commits fetch).sections) =
          (flattenLessons (commitModeSections commits)).map (fillLessonCommit fetch) :=
        flattenLessons_map_fill _ _
      rw [hfinal, List.countP_map]
      have hcongr : (flattenLessons (commitModeSections commits)).countP
            (p ∘ fillLessonCommit fetch) =
          (flattenLessons (commitModeSections commits)).countP p :=
        List.countP_congr (fun a _ => by simp only [Function.comp_apply, hfill a])
      rw [hcongr, hM, distribute_countP commits p hp_order _ 0 _ h0,
        (sortByKey_perm _ _).countP_eq, List.countP_append]
      have hone : 0 < ((classifyCommits commits).templateCommits.map
          (pairTemplate (classifyCommits commits).solutionCommits)).countP p :=
        List.countP_pos_iff.mpr
          ⟨pairTemplate (classifyCommits commits).solutionCommits t,
            List.mem_map_of_mem _ ht, hp_pair⟩
      omega
    rcases List.countP_pos_iff.mp hpos with ⟨y, hy, hpy⟩
    rw [hp_def] at hpy
    simp only [Bool.and_eq_true, beq_iff_eq] at hpy
    exact ⟨y, hy, hpy.2, hpy.1.1.1, hpy.1.1.2, hpy.1.2⟩
  · intro steps fetch t d hmem htype hnosol hok
    rw [extractFromSteps] at hok
    cases hsm : stepModeSections steps with
    | error e => rw [hsm] at hok; cases hok
    | ok secsOut =>
        rw [hsm] at hok
        have hd : d = GitorialData.mk
            (secsOut.map (fun s => { s with
              lessons := s.lessons.map (fillLessonStep fetch) })) := by
          cases hok
          rfl
        simp only [stepModeSections] at hsm
        split at hsm
        · cases hsm
        · split at hsm
          · cases hsm
          · next hne2 =>
            have hsecs : secsOut = distributeSteps
                (sortByKey (fun s => (s.stepOrder.getD 0 : Int))
                  (buildSections ((sortByKey (fun s => (s.dir : Int)) steps).filter
                    (fun s => s.type == StepType.sec))))
                (sortByKey (fun l => (l.order : Int))
                  (((sortByKey (fun s => (s.dir : Int)) steps).filter
                      (fun s => s.type == StepType.template)).map
                    (pairTemplateStep ((sortByKey (fun s => (s.dir : Int)) steps).filter
                      (fun s => s.type == StepType.solution))) ++
                    ((sortByKey (fun s => (s.dir : Int)) steps).filter
                      (fun s => s.type == StepType.action)).map stepSourceLesson ++
                    (((sortByKey (fun s => (s.dir : Int)) steps).filter
                      (fun s => !(((sortByKey (fun s => (s.dir : Int)) steps).filter
                          (fun s => s.type == StepType.sec)).map (fun x => x.dir) ++
                        ((sortByKey (fun s => (s.dir : Int)) steps).filter
                          (fun s => s.type == StepType.template)).map (fun x => x.dir) ++
                        ((sortByKey (fun s => (s.dir : Int)) steps).filter
                          (fun s => s.type == StepType.solution)).map (fun x => x.dir) ++
                        ((sortByKey (fun s => (s.dir : Int)) steps).filter
                          (fun s => s.type == StepType.action)).map (fun x => x.dir)).contains
                            s.dir)).map stepSourceLesson))) := by
              cases hsm
              rfl
            have hperm := sortByKey_perm (fun s => (s.dir : Int)) steps
            have hfind : ((sortByKey (fun s => (s.dir : Int)) steps).filter
                (fun s => s.type == StepType.solution)).find?
                  (fun s => s.dir == t.dir + 1) = none := by
              apply List.find?_eq_none.mpr
              intro s hs
              rcases List.mem_filter.mp hs with ⟨hs1, hs2⟩
              have hst : s.type = .solution := beq_iff_eq.mp hs2
              simpa using hnosol s (hperm.mem_iff.mp hs1) hst
            set p : Lesson → Bool := fun l =>
              l.templateStep == some t && l.solutionStep == none &&
                l.solutionContent == none && l.type == LessonType.templateSolution
              with hp_def
            have hp_order : ∀ (x : Lesson) (n : Nat), p { x with order := n } = p x :=
              fun x n => rfl
            have hp_pair : p (pairTemplateStep
                ((sortByKey (fun s => (s.dir : Int)) steps).filter
                  (fun s => s.type == StepType.solution)) t) = true := by
              rcases pairTemplateStep_fields
                  ((sortByKey (fun s => (s.dir : Int)) steps).filter
                    (fun s => s.type == StepType.solution)) t with
                ⟨h1, h2, h3, h4, _, _, _⟩
              rw [hp_def]
              simp [h1, h2, h3, h4, hfind]
            have hfill : ∀ a : Lesson, p (fillLessonStep fetch a) = p a := by
              intro a
              rcases fillLessonStep_keeps fetch a with
                ⟨k1, _, _, _, k5, k6, _, _, _, _⟩
              by_cases hs : a.solutionStep = none
              · rw [hp_def]
                simp [k1, k5, k6, fillLessonStep_solutionContent_none fetch a hs]
              · have hb : (a.solutionStep == none) = false := by simpa using hs
                rw [hp_def]
                simp [k1, k5, k6, hb]
            have h0 : 0 < (sortByKey (fun s => (s.stepOrder.getD 0 : Int))
                (buildSections ((sortByKey (fun s => (s.dir : Int)) steps).filter
                  (fun s => s.type == StepType.sec)))).length := by
              rw [(sortByKey_perm _ _).length_eq]
              exact List.length_pos.mpr (fun hnil => hne2 (by simp [hnil]))
            have hpos : 0 < (flattenLessons d.sections).countP p := by
              rw [hd]
              show 0 < (flattenLessons (secsOut.map _)).countP p
              rw [flattenLessons_map_fill, List.countP_map]
              have hcongr : (flattenLessons secsOut).countP (p ∘ fillLessonStep fetch) =
                  (flattenLessons secsOut).countP p :=
                List.countP_congr (fun a _ => by simp only [Function.comp_apply, hfill a])
              rw [hcongr, hsecs, distributeSteps_countP p hp_order _ _ h0,
                (sortByKey_perm _ _).countP_eq, List.countP_append, List.countP_append]
              have hmem_t : t ∈ (sortByKey (fun s => (s.dir : Int)) steps).filter
                  (fun s => s.type == StepType.template) :=
                List.mem_filter.mpr ⟨hperm.mem_iff.mpr hmem, beq_iff_eq.mpr htype⟩
              have hone : 0 < (((sortByKey (fun s => (s.dir : Int)) steps).filter
                  (fun s => s.type == StepType.template)).map
                    (pairTemplateStep ((sortByKey (fun s => (s.dir : Int)) steps).filter
                      (fun s => s.type == StepType.solution)))).countP p :=
                List.countP_pos_iff.mpr ⟨_, List.mem_map_of_mem _ hmem_t, hp_pair⟩
              omega
            rcases List.countP_pos_iff.mp hpos with ⟨y, hy, hpy⟩
            rw [hp_def] at hpy
            simp only [Bool.and_eq_true, beq_iff_eq] at hpy
            exact ⟨y, hy, hpy.2, hpy.1.1.1, hpy.1.1.2, hpy.1.2⟩

/-- C7, witness: the lone template commit `c5` and the lone template step 5 of the
samples, each with no matching solution, still produce their lessons. -/
theorem claim_C7_witness :
    (∃ y ∈ flattenLessons ((extractFromCommits sampleCommits (fun _ => [])).sections),
      y.type = .templateSolution ∧ y.templateHash = some "c5" ∧
        y.solutionHash = none ∧ y.solutionContent = none) ∧
    (∃ y ∈ flattenLessons (((extractFromSteps sampleSteps
          (fun _ => [])).toOption.getD default).sections),
      y.type = .templateSolution ∧ y.templateStep = some sampleLoneTemplateStep ∧
        y.solutionStep = none ∧ y.solutionContent = none) :=
  ⟨claim_C7.1 sampleCommits (fun _ => []) { hash := "c5", message := "Lone Template" }
      (by decide) (by decide),
    claim_C7.2 sampleSteps (fun _ => []) sampleLoneTemplateStep
      ((extractFromSteps sampleSteps (fun _ => [])).toOption.getD default)
      (by decide) (by decide) (by decide) rfl⟩

/-! ## Claim C5 -/

/-- C5: in commit-history mode, a Template with at least one Solution of equal
trimmed title yields exactly one lesson whose primary is the template; its
secondary is the FIRST such Solution in stream order (`s₀`, the `find?` result:
first conjunct), and after the content-fetch phase both the template content and
the solution content are populated. -/
theorem claim_C5 (commits : List GitCommit) (fetch : String → ContentMap)
    (t s₀ : TaggedCommit)
    (hn : (commits.map (fun c => c.hash)).Nodup)
    (ht : t ∈ (classifyCommits commits).templateCommits)
    (hfind : (classifyCommits commits).solutionCommits.find?
      (fun s => strTrim s.message == strTrim t.message) = some s₀) :
    (∃ l₁ l₂, (classifyCommits commits).solutionCommits = l₁ ++ s₀ :: l₂ ∧
      strTrim s₀.message = strTrim t.message ∧
      ∀ x ∈ l₁, strTrim x.message ≠ strTrim t.message) ∧
    ∃ y ∈ flattenLessons ((extractFromCommits commits fetch).sections),
      y.type = .templateSolution ∧ y.templateHash = some t.hash ∧
        y.solutionHash = some s₀.hash ∧
        y.templateContent = some (fetch t.hash) ∧
        y.solutionContent = some (fetch s₀.hash) ∧
        ∀ z ∈ flattenLessons ((extractFromCommits commits fetch).sections),
          z.templateHash = some t.hash → z = y := by
  constructor
  · rcases find?_first _ _ _ hfind with ⟨l₁, l₂, hsplit, hl₁⟩
    have hmatch : strTrim s₀.message = strTrim t.message := by
      simpa using List.find?_some hfind
    exact ⟨l₁, l₂, hsplit, hmatch, fun x hx => by simpa using hl₁ x hx⟩
  · set p : Lesson → Bool := fun l => l.templateHash == some t.hash with hp_def
    have hp_order : ∀ (x : Lesson) (n : Nat), p { x with order := n } = p x := fun x n => rfl
    have hfillkeep : ∀ a : Lesson, p (fillLessonCommit fetch a) = p a := by
      intro a
      rw [hp_def]
      simp [(fillLessonCommit_keeps fetch a).2.1]
    have h0 := secs0_length_pos commits
    have hM : commitModeSections commits =
        distribute commits 0 (if (classifyCommits commits).sections.isEmpty
            then [defaultSection] else (classifyCommits commits).sections)
          (sortByKey (fun l => commitIndexOf commits (lessonHash l))
            ((classifyCommits commits).templateCommits.map
                (pairTemplate (classifyCommits commits).solutionCommits) ++
              (classifyCommits commits).actionCommits.map actionLesson)) := by
      simp only [commitModeSections]
    have hfinal : flattenLessons ((extractFromCommits commits fetch).sections) =
        (flattenLessons (commitModeSections commits)).map (fillLessonCommit fetch) :=
      flattenLessons_map_fill _ _
    have hsrc0 : ((classifyCommits commits).actionCommits.map actionLesson).countP p = 0 := by
      apply List.countP_eq_zero.mpr
      intro a ha
      rcases List.mem_map.mp ha with ⟨ac, _, rfl⟩
      rw [hp_def]
      simp [actionLesson]
    have hpairs : ((classifyCommits commits).templateCommits.map
        (pairTemplate (classifyCommits commits).solutionCommits)).countP p =
        (classifyCommits commits).templateCommits.countP (fun tc => tc.hash == t.hash) := by
      rw [List.countP_map]
      apply List.countP_congr
      intro tc _
      rw [hp_def]
      simp [Function.comp,
        (pairTemplate_fields (classifyCommits commits).solutionCommits tc).1]
    have hle1 := templates_hash_countP_le_one commits hn t.hash
    have hge1 : 0 < (classifyCommits commits).templateCommits.countP
        (fun tc => tc.hash == t.hash) :=
      List.countP_pos_iff.mpr ⟨t, ht, by simp⟩
    have hcount : (flattenLessons ((extractFromCommits commits fetch).sections)).countP p
        = 1 := by
      have hc1 : (flattenLessons (commitModeSections commits)).countP
          (p ∘ fillLessonCommit fetch) =
          (flattenLessons (commitModeSections commits)).countP p :=
        List.countP_congr (fun a _ => by simp only [Function.comp_apply, hfillkeep a])
      rw [hfinal, List.countP_map, hc1,
        hM, distribute_countP commits p hp_order _ 0 _ h0, secs0_flatten_nil,
        (sortByKey_perm _ _).countP_eq, List.countP_append, hsrc0, hpairs]
      simp only [List.countP_nil]
      omega
    have hpos : 0 < (flattenLessons ((extractFromCommits commits fetch).sections)).countP p := by
      omega
    rcases List.countP_pos_iff.mp hpos with ⟨y, hy, hpy⟩
    have hdec : ∃ y2 ∈ flattenLessons (commitModeSections commits),
        y = fillLessonCommit fetch y2 := by
      have hy' := hy
      rw [hfinal] at hy'
      rcases List.mem_map.mp hy' with ⟨y2, hy2, hyy⟩
      exact ⟨y2, hy2, hyy.symm⟩
    rcases hdec with ⟨y2, hy2, rfl⟩
    have hy2p : p y2 = true := by
      rw [← hfillkeep y2]
      exact hpy
    have hy2th : y2.templateHash = some t.hash := by
      rw [hp_def] at hy2p
      simpa using hy2p
    rcases distribute_mem commits _ 0 _ h0 y2 (by rw [← hM]; exact hy2) with
      hleft | ⟨x, hxall, n, hy2eq⟩
    · rw [secs0_flatten_nil] at hleft
      cases hleft
    subst hy2eq
    have hxmem : x ∈ (classifyCommits commits).templateCommits.map
          (pairTemplate (classifyCommits commits).solutionCommits) ++
        (classifyCommits commits).actionCommits.map actionLesson :=
      (sortByKey_perm _ _).mem_iff.mp hxall
    have hxth : x.templateHash = some t.hash := hy2th
    rcases List.mem_append.mp hxmem with hxp | hxs
    swap
    · rcases List.mem_map.mp hxs with ⟨ac, _, rfl⟩
      simp [actionLesson] at hxth
    rcases List.mem_map.mp hxp with ⟨tc, htc, rfl⟩
    have htch : tc.hash = t.hash := by
      have hf1 := (pairTemplate_fields (classifyCommits commits).solutionCommits tc).1
      rw [hf1] at hxth
      exact Option.some_inj.mp hxth
    have htct : tc = t :=
      countP_le_one_unique hle1 htc ht (by simp [htch]) (by simp)
    subst htct
    rcases pairTemplate_fields (classifyCommits commits).solutionCommits tc with
      ⟨f1, f2, _, f4, _, _⟩
    have hxsol : (pairTemplate (classifyCommits commits).solutionCommits tc).solutionHash
        = some s₀.hash := by
      rw [f4, hfind]
      rfl
    refine ⟨_, hy, ?_, ?_, ?_, ?_, ?_, ?_⟩
    · rw [(fillLessonCommit_keeps fetch _).1]
      exact f2
    · rw [(fillLessonCommit_keeps fetch _).2.1]
      exact f1
    · rw [(fillLessonCommit_keeps fetch _).2.2.1]
      exact hxsol
    · exact fillLessonCommit_templateContent_some fetch _ tc.hash f2 f1
    · exact fillLessonCommit_solutionContent_some fetch _ s₀.hash f2 hxsol
    · intro z hz hzth
      exact countP_le_one_unique (le_of_eq hcount) hz hy
        (by rw [hp_def]; simp [hzth]) hpy

/-- C5, witness at the sample commit stream: template `c2` pairs with solution
`c3` (equal trimmed title `"Implement Hello World"`) and both contents are
fetched. -/
theorem claim_C5_witness :
    ∃ y ∈ flattenLessons ((extractFromCommits sampleCommits
        (fun h => [("src/main.js", h)])).sections),
      y.type = .templateSolution ∧ y.templateHash = some "c2" ∧
        y.solutionHash = some "c3" ∧
        y.templateContent = some [("src/main.js", "c2")] ∧
        y.solutionContent = some [("src/main.js", "c3")] ∧
        ∀ z ∈ flattenLessons ((extractFromCommits sampleCommits
            (fun h => [("src/main.js", h)])).sections),
          z.templateHash = some "c2" → z = y :=
  (claim_C5 sampleCommits (fun h => [("src/main.js", h)])
    { hash := "c2", message := "Implement Hello World" }
    { hash := "c3", message := "Implement Hello World" }
    (by decide) (by decide) (by decide)).2

/-! ## Claim C10 -/

/-- C10: a Solution record selected by no Template (no equal trimmed title in
commit-history mode; no Template at numeric position `p - 1` in directory-listing
mode) never appears in the output — no lesson carries it as any identity — and its
content snapshot is never fetched; in directory-listing mode it is also excluded
from the uncategorized-step fallback, being counted as categorized. -/
theorem claim_C10 :
    (∀ (commits : List GitCommit) (fetch : String → ContentMap) (s : TaggedCommit),
      (commits.map (fun c => c.hash)).Nodup →
      s ∈ (classifyCommits commits).solutionCommits →
      (∀ tc ∈ (classifyCommits commits).templateCommits,
        strTrim tc.message ≠ strTrim s.message) →
      (∀ y ∈ flattenLessons ((extractFromCommits commits fetch).sections),
        y.templateHash ≠ some s.hash ∧ y.solutionHash ≠ some s.hash ∧
          y.sourceHash ≠ some s.hash) ∧
        s.hash ∉ fetchedCommitHashes (commitModeSections commits)) ∧
    (∀ (steps : List Step) (s : Step) (secsOut : List Section),
      s ∈ steps → s.type = .solution →
      (∀ t ∈ steps, t.type = .template → t.dir + 1 ≠ s.dir) →
      stepModeSections steps = .ok secsOut →
      (∀ y ∈ flattenLessons secsOut,
        y.templateStep ≠ some s ∧ y.solutionStep ≠ some s ∧ y.sourceStep ≠ some s) ∧
        s ∉ fetchedSteps secsOut ∧
        s ∉ (sortByKey (fun st => (st.dir : Int)) steps).filter
          (fun st => !((((sortByKey (fun st => (st.dir : Int)) steps).filter
              (fun st => st.type == StepType.sec)).map (fun x => x.dir) ++
            ((sortByKey (fun st => (st.dir : Int)) steps).filter
              (fun st => st.type == StepType.template)).map (fun x => x.dir) ++
            ((sortByKey (fun st => (st.dir : Int)) steps).filter
              (fun st => st.type == StepType.solution)).map (fun x => x.dir) ++
            ((sortByKey (fun st => (st.dir : Int)) steps).filter
              (fun st => st.type == StepType.action)).map (fun x => x.dir)).contains
                st.dir))) := by
  constructor
  · intro commits fetch s hn hs hnomatch
    set q : Lesson → Bool := fun l =>
      l.templateHash == some s.hash || l.solutionHash == some s.hash ||
        l.sourceHash == some s.hash with hq_def
    have hq_order : ∀ (x : Lesson) (n : Nat), q { x with order := n } = q x := fun x n => rfl
    have hq_fill : ∀ a : Lesson, q (fillLessonCommit fetch a) = q a := by
      intro a
      rcases fillLessonCommit_keeps fetch a with ⟨_, k2, k3, k4, _⟩
      rw [hq_def]
      simp [k2, k3, k4]
    have hdisj := solution_hash_disjoint commits hn s hs
    have hsle1 := solutions_hash_countP_le_one commits hn s.hash
    have hq_pairs : ((classifyCommits commits).templateCommits.map
        (pairTemplate (classifyCommits commits).solutionCommits)).countP q = 0 := by
      apply List.countP_eq_zero.mpr
      intro a ha
      rcases List.mem_map.mp ha with ⟨tc, htc, rfl⟩
      rcases pairTemplate_fields (classifyCommits commits).solutionCommits tc with
        ⟨f1, _, f3, f4, _, _⟩
      intro hcon
      have hcon' : ((pairTemplate (classifyCommits commits).solutionCommits tc).templateHash
            == some s.hash ||
          (pairTemplate (classifyCommits commits).solutionCommits tc).solutionHash
            == some s.hash ||
          (pairTemplate (classifyCommits commits).solutionCommits tc).sourceHash
            == some s.hash) = true := hcon
      simp only [Bool.or_eq_true, beq_iff_eq] at hcon'
      rcases hcon' with (hc | hc) | hc
      · rw [f1] at hc
        exact hdisj.1 tc htc (Option.some_inj.mp hc)
      · rw [f4] at hc
        cases hfind : (classifyCommits commits).solutionCommits.find?
            (fun x => strTrim x.message == strTrim tc.message) with
        | none => rw [hfind] at hc; cases hc
        | some sc =>
            rw [hfind] at hc
            simp only [Option.map_some'] at hc
            have hscs : sc = s := by
              apply countP_le_one_unique hsle1 (List.mem_of_find?_eq_some hfind) hs
              · simpa using Option.some_inj.mp hc
              · simp
            have hmatchsc := List.find?_some hfind
            rw [hscs] at hmatchsc
            exact hnomatch tc htc (by simpa using hmatchsc :
              strTrim s.message = strTrim tc.message).symm
      · rw [f3] at hc
        cases hc
    have hq_sources : ((classifyCommits commits).actionCommits.map actionLesson).countP q
        = 0 := by
      apply List.countP_eq_zero.mpr
      intro a ha
      rcases List.mem_map.mp ha with ⟨ac, hac, rfl⟩
      intro hcon
      have hcon' : ((actionLesson ac).templateHash == some s.hash ||
          (actionLesson ac).solutionHash == some s.hash ||
          (actionLesson ac).sourceHash == some s.hash) = true := hcon
      simp only [actionLesson, Bool.or_eq_true, beq_iff_eq] at hcon'
      rcases hcon' with (hc | hc) | hc
      · cases hc
      · cases hc
      · exact hdisj.2 ac hac (Option.some_inj.mp hc)
    have hM : commitModeSections commits =
        distribute commits 0 (if (classifyCommits commits).sections.isEmpty
            then [defaultSection] else (classifyCommits commits).sections)
          (sortByKey (fun l => commitIndexOf commits (lessonHash l))
            ((classifyCommits commits).templateCommits.map
                (pairTemplate (classifyCommits commits).solutionCommits) ++
              (classifyCommits commits).actionCommits.map actionLesson)) := by
      simp only [commitModeSections]
    have htotal : (flattenLessons (commitModeSections commits)).countP q = 0 := by
      rw [hM, distribute_countP commits q hq_order _ 0 _ (secs0_length_pos commits),
        secs0_flatten_nil, (sortByKey_perm _ _).countP_eq, List.countP_append,
        hq_pairs, hq_sources]
      rfl
    have hflat0 : ∀ y ∈ flattenLessons (commitModeSections commits),
        (y.templateHash == some s.hash || y.solutionHash == some s.hash ||
          y.sourceHash == some s.hash) = false := by
      intro y hy
      have h1 := List.countP_eq_zero.mp htotal y hy
      have h2 : ¬ ((y.templateHash == some s.hash || y.solutionHash == some s.hash ||
          y.sourceHash == some s.hash) = true) := h1
      simpa using h2
    constructor
    · intro y hy
      have hfinal : flattenLessons ((extractFromCommits commits fetch).sections) =
          (flattenLessons (commitModeSections commits)).map (fillLessonCommit fetch) :=
        flattenLessons_map_fill _ _
      rw [hfinal] at hy
      rcases List.mem_map.mp hy with ⟨y2, hy2, rfl⟩
      have hqy : (q (fillLessonCommit fetch y2)) = false := by
        rw [hq_fill]
        exact hflat0 y2 hy2
      have hqy' : ((fillLessonCommit fetch y2).templateHash == some s.hash ||
          (fillLessonCommit fetch y2).solutionHash == some s.hash ||
          (fillLessonCommit fetch y2).sourceHash == some s.hash) = false := hqy
      rcases Bool.or_eq_false_iff.mp hqy' with ⟨h12, h3⟩
      rcases Bool.or_eq_false_iff.mp h12 with ⟨h1, h2⟩
      refine ⟨?_, ?_, ?_⟩
      · intro hcon; rw [hcon] at h1; simp at h1
      · intro hcon; rw [hcon] at h2; simp at h2
      · intro hcon; rw [hcon] at h3; simp at h3
    · intro hmem
      rcases List.mem_flatMap.mp hmem with ⟨y, hy, hyf⟩
      rcases Bool.or_eq_false_iff.mp (hflat0 y hy) with ⟨h12, h3⟩
      rcases Bool.or_eq_false_iff.mp h12 with ⟨h1, h2⟩
      rw [lessonFetchHashes] at hyf
      split at hyf
      · rcases List.mem_append.mp hyf with hm | hm
        · have : y.templateHash = some s.hash := Option.mem_toList.mp hm
          rw [this] at h1; simp at h1
        · have : y.solutionHash = some s.hash := Option.mem_toList.mp hm
          rw [this] at h2; simp at h2
      · have : y.sourceHash = some s.hash := Option.mem_toList.mp hyf
        rw [this] at h3; simp at h3
  · intro steps s secsOut hmem hstype hnot hsm
    simp only [stepModeSections] at hsm
    split at hsm
    · cases hsm
    · split at hsm
      · cases hsm
      · next hne2 =>
        have hperm := sortByKey_perm (fun st => (st.dir : Int)) steps
        have hsecs : secsOut = distributeSteps
            (sortByKey (fun st => (st.stepOrder.getD 0 : Int))
              (buildSections ((sortByKey (fun st => (st.dir : Int)) steps).filter
                (fun st => st.type == StepType.sec))))
            (sortByKey (fun l => (l.order : Int))
              (((sortByKey (fun st => (st.dir : Int)) steps).filter
                  (fun st => st.type == StepType.template)).map
                (pairTemplateStep ((sortByKey (fun st => (st.dir : Int)) steps).filter
                  (fun st => st.type == StepType.solution))) ++
                ((sortByKey (fun st => (st.dir : Int)) steps).filter
                  (fun st => st.type == StepType.action)).map stepSourceLesson ++
                (((sortByKey (fun st => (st.dir : Int)) steps).filter
                  (fun st => !((((sortByKey (fun st => (st.dir : Int)) steps).filter
                      (fun st => st.type == StepType.sec)).map (fun x => x.dir) ++
                    ((sortByKey (fun st => (st.dir : Int)) steps).filter
                      (fun st => st.type == StepType.template)).map (fun x => x.dir) ++
                    ((sortByKey (fun st => (st.dir : Int)) steps).filter
                      (fun st => st.type == StepType.solution)).map (fun x => x.dir) ++
                    ((sortByKey (fun st => (st.dir : Int)) steps).filter
                      (fun st => st.type == StepType.action)).map (fun x => x.dir)).contains
                        st.dir))).map stepSourceLesson))) := by
          cases hsm
          rfl
        set q : Lesson → Bool := fun l =>
          l.templateStep == some s || l.solutionStep == some s ||
            l.sourceStep == some s with hq_def
        have hq_order : ∀ (x : Lesson) (n : Nat), q { x with order := n } = q x :=
          fun x n => rfl
        have hsmem : s.dir ∈ (((sortByKey (fun st => (st.dir : Int)) steps).filter
              (fun st => st.type == StepType.sec)).map (fun x => x.dir) ++
            ((sortByKey (fun st => (st.dir : Int)) steps).filter
              (fun st => st.type == StepType.template)).map (fun x => x.dir) ++
            ((sortByKey (fun st => (st.dir : Int)) steps).filter
              (fun st => st.type == StepType.solution)).map (fun x => x.dir) ++
            ((sortByKey (fun st => (st.dir : Int)) steps).filter
              (fun st => st.type == StepType.action)).map (fun x => x.dir)) := by
          apply List.mem_append_left
          apply List.mem_append_right
          exact List.mem_map_of_mem _
            (List.mem_filter.mpr ⟨hperm.mem_iff.mpr hmem, beq_iff_eq.mpr hstype⟩)
        have hq_src : ∀ u : Step, u ≠ s → ¬ (q (stepSourceLesson u) = true) := by
          intro u hu hcon
          have hcon' : ((stepSourceLesson u).templateStep == some s ||
              (stepSourceLesson u).solutionStep == some s ||
              (stepSourceLesson u).sourceStep == some s) = true := hcon
          simp only [stepSourceLesson, Bool.or_eq_true, beq_iff_eq] at hcon'
          rcases hcon' with (hc | hc) | hc
          · cases hc
          · cases hc
          · exact hu (Option.some_inj.mp hc)
        have hq_pairs : (((sortByKey (fun st => (st.dir : Int)) steps).filter
            (fun st => st.type == StepType.template)).map
              (pairTemplateStep ((sortByKey (fun st => (st.dir : Int)) steps).filter
                (fun st => st.type == StepType.solution)))).countP q = 0 := by
          apply List.countP_eq_zero.mpr
          intro a ha
          rcases List.mem_map.mp ha with ⟨t, ht, rfl⟩
          rcases List.mem_filter.mp ht with ⟨ht1, ht2⟩
          have httype : t.type = .template := beq_iff_eq.mp ht2
          rcases pairTemplateStep_fields ((sortByKey (fun st => (st.dir : Int)) steps).filter
              (fun st => st.type == StepType.solution)) t with ⟨f1, _, f3, _, f5, _, _⟩
          intro hcon
          have hcon' : ((pairTemplateStep ((sortByKey (fun st => (st.dir : Int)) steps).filter
                (fun st => st.type == StepType.solution)) t).templateStep == some s ||
              (pairTemplateStep ((sortByKey (fun st => (st.dir : Int)) steps).filter
                (fun st => st.type == StepType.solution)) t).solutionStep == some s ||
              (pairTemplateStep ((sortByKey (fun st => (st.dir : Int)) steps).filter
                (fun st => st.type == StepType.solution)) t).sourceStep == some s)
              = true := hcon
          simp only [Bool.or_eq_true, beq_iff_eq] at hcon'
          rcases hcon' with (hc | hc) | hc
          · rw [f1] at hc
            have : t = s := Option.some_inj.mp hc
            rw [this, hstype] at httype
            cases httype
          · rw [f3] at hc
            have hsdir := List.find?_some hc
            have hdir : s.dir = t.dir + 1 := by simpa using hsdir
            exact hnot t (hperm.mem_iff.mp ht1) httype hdir.symm
          · rw [f5] at hc
            cases hc
        have hq_actions : (((sortByKey (fun st => (st.dir : Int)) steps).filter
            (fun st => st.type == StepType.action)).map stepSourceLesson).countP q = 0 := by
          apply List.countP_eq_zero.mpr
          intro a ha
          rcases List.mem_map.mp ha with ⟨u, hu, rfl⟩
          rcases List.mem_filter.mp hu with ⟨_, hu2⟩
          have hut : u.type = .action := beq_iff_eq.mp hu2
          apply hq_src u
          intro hcon
          rw [hcon, hstype] at hut
          cases hut
        have hq_uncat : ((((sortByKey (fun st => (st.dir : Int)) steps).filter
            (fun st => !((((sortByKey (fun st => (st.dir : Int)) steps).filter
                (fun st => st.type == StepType.sec)).map (fun x => x.dir) ++
              ((sortByKey (fun st => (st.dir : Int)) steps).filter
                (fun st => st.type == StepType.template)).map (fun x => x.dir) ++
              ((sortByKey (fun st => (st.dir : Int)) steps).filter
                (fun st => st.type == StepType.solution)).map (fun x => x.dir) ++
              ((sortByKey (fun st => (st.dir : Int)) steps).filter
                (fun st => st.type == StepType.action)).map (fun x => x.dir)).contains
                  st.dir))).map stepSourceLesson)).countP q = 0 := by
          apply List.countP_eq_zero.mpr
          intro a ha
          rcases List.mem_map.mp ha with ⟨u, hu, rfl⟩
          rcases List.mem_filter.mp hu with ⟨_, hu2⟩
          apply hq_src u
          intro hcon
          subst hcon
          rw [Bool.not_eq_true'] at hu2
          exact absurd hsmem (by simpa using hu2)
        have h0 : 0 < (sortByKey (fun st => (st.stepOrder.getD 0 : Int))
            (buildSections ((sortByKey (fun st => (st.dir : Int)) steps).filter
              (fun st => st.type == StepType.sec)))).length := by
          rw [(sortByKey_perm _ _).length_eq]
          exact List.length_pos.mpr (fun hnil => hne2 (by simp [hnil]))
        have hsecflat : flattenLessons (sortByKey (fun st => (st.stepOrder.getD 0 : Int))
            (buildSections ((sortByKey (fun st => (st.dir : Int)) steps).filter
              (fun st => st.type == StepType.sec)))) = [] := by
          apply flattenLessons_eq_nil
          intro sec hsec
          exact buildSections_lessons _ sec ((sortByKey_perm _ _).mem_iff.mp hsec)
        have htotal : (flattenLessons secsOut).countP q = 0 := by
          rw [hsecs, distributeSteps_countP q hq_order _ _ h0, hsecflat,
            (sortByKey_perm _ _).countP_eq, List.countP_append, List.countP_append,
            hq_pairs, hq_actions, hq_uncat]
          rfl
        have hflat0 : ∀ y ∈ flattenLessons secsOut,
            (y.templateStep == some s || y.solutionStep == some s ||
              y.sourceStep == some s) = false := by
          intro y hy
          have h1 := List.countP_eq_zero.mp htotal y hy
          have h2 : ¬ ((y.templateStep == some s || y.solutionStep == some s ||
              y.sourceStep == some s) = true) := h1
          simpa using h2
        refine ⟨?_, ?_, ?_⟩
        · intro y hy
          rcases Bool.or_eq_false_iff.mp (hflat0 y hy) with ⟨h12, h3⟩
          rcases Bool.or_eq_false_iff.mp h12 with ⟨h1, h2⟩
          refine ⟨?_, ?_, ?_⟩
          · intro hcon; rw [hcon] at h1; simp at h1
          · intro hcon; rw [hcon] at h2; simp at h2
          · intro hcon; rw [hcon] at h3; simp at h3
        · intro hmemf
          rcases List.mem_flatMap.mp hmemf with ⟨y, hy, hyf⟩
          rcases Bool.or_eq_false_iff.mp (hflat0 y hy) with ⟨h12, h3⟩
          rcases Bool.or_eq_false_iff.mp h12 with ⟨h1, h2⟩
          rw [lessonFetchSteps] at hyf
          split at hyf
          · rcases List.mem_append.mp hyf with hm | hm
            · have : y.templateStep = some s := Option.mem_toList.mp hm
              rw [this] at h1; simp at h1
            · have : y.solutionStep = some s := Option.mem_toList.mp hm
              rw [this] at h2; simp at h2
          · have : y.sourceStep = some s := Option.mem_toList.mp hyf
            rw [this] at h3; simp at h3
        · intro hcon
          rcases List.mem_filter.mp hcon with ⟨_, hc2⟩
          rw [Bool.not_eq_true'] at hc2
          exact absurd hsmem (by simpa using hc2)

/-- C10, witness: an orphan solution commit and an orphan solution step (no
template precedes it) leave no trace in the outputs and are never fetched. -/
theorem claim_C10_witness :
    (("c9" ∉ fetchedCommitHashes (commitModeSections
        [{ hash := "c1", message := "section: One" },
          { hash := "c9", message := "solution: Orphan" }]))) ∧
    (sampleSolutionStep ∉ fetchedSteps ((stepModeSections
        [sampleSectionStep, sampleSolutionStep]).toOption.getD default)) :=
  ⟨(claim_C10.1 [{ hash := "c1", message := "section: One" },
        { hash := "c9", message := "solution: Orphan" }] (fun _ => [])
      { hash := "c9", message := "Orphan" } (by decide) (by decide) (by decide)).2,
    ((claim_C10.2 [sampleSectionStep, sampleSolutionStep] sampleSolutionStep
      ((stepModeSections [sampleSectionStep, sampleSolutionStep]).toOption.getD default)
      (by decide) (by decide) (by decide) rfl).2).1⟩

/-! ## Claim C9 -/

/-- C9: in the final GitorialData of either mode, the `order` fields of the
section list and of each section's lesson list form contiguous 1-based sequences
(the lesson orders are recomputed as 1-based positions during section
assignment). -/
theorem claim_C9 :
    (∀ (commits : List GitCommit) (fetch : String → ContentMap),
      (∀ i (hi : i < (extractFromCommits commits fetch).sections.length),
        ((extractFromCommits commits fetch).sections)[i].order = i + 1) ∧
      (∀ sec ∈ (extractFromCommits commits fetch).sections,
        ∀ j (hj : j < sec.lessons.length), (sec.lessons)[j].order = j + 1)) ∧
    (∀ (steps : List Step) (fetch : String → ContentMap) (d : GitorialData),
      (∀ s ∈ steps, s.order = s.dir) →
      extractFromSteps steps fetch = .ok d →
      (∀ i (hi : i < d.sections.length), (d.sections)[i].order = i + 1) ∧
      (∀ sec ∈ d.sections, ∀ j (hj : j < sec.lessons.length),
        (sec.lessons)[j].order = j + 1)) := by
  constructor
  · intro commits fetch
    have h1 : ∀ i (hi : i < (if (classifyCommits commits).sections.isEmpty
          then [defaultSection] else (classifyCommits commits).sections).length),
        ((if (classifyCommits commits).sections.isEmpty
          then [defaultSection] else (classifyCommits commits).sections))[i].order = i + 1 := by
      split
      · intro i hi
        have : i = 0 := by simpa using hi
        subst this
        rfl
      · exact classify_sections_orders commits ⟨[], [], [], []⟩ (fun i hi => by cases hi)
    have h2 : ∀ sec ∈ (if (classifyCommits commits).sections.isEmpty
          then [defaultSection] else (classifyCommits commits).sections),
        ∀ j (hj : j < sec.lessons.length), (sec.lessons)[j].order = j + 1 := by
      intro sec hsec j hj
      have hnil : sec.lessons = [] := by
        revert hsec
        split
        · intro hsec
          rcases List.mem_singleton.mp hsec with rfl
          rfl
        · intro hsec
          exact classify_sections_lessons commits sec hsec
      rw [hnil] at hj
      cases hj
    have hM : commitModeSections commits =
        distribute commits 0 (if (classifyCommits commits).sections.isEmpty
            then [defaultSection] else (classifyCommits commits).sections)
          (sortByKey (fun l => commitIndexOf commits (lessonHash l))
            ((classifyCommits commits).templateCommits.map
                (pairTemplate (classifyCommits commits).solutionCommits) ++
              (classifyCommits commits).actionCommits.map actionLesson)) := by
      simp only [commitModeSections]
    have hdist := distribute_orders commits
      (sortByKey (fun l => commitIndexOf commits (lessonHash l))
        ((classifyCommits commits).templateCommits.map
            (pairTemplate (classifyCommits commits).solutionCommits) ++
          (classifyCommits commits).actionCommits.map actionLesson)) 0 _ h1 h2
    have hfinal := fillSections_orders (fillLessonCommit fetch)
      (fun l => (fillLessonCommit_keeps fetch l).2.2.2.2.2.2.2.1)
      (commitModeSections commits) (by rw [hM]; exact hdist.1) (by rw [hM]; exact hdist.2)
    exact hfinal
  · intro steps fetch d hwf hok
    rw [extractFromSteps] at hok
    cases hsm : stepModeSections steps with
    | error e =>
        rw [hsm] at hok
        cases hok
    | ok secsOut =>
        rw [hsm] at hok
        have hd : d = GitorialData.mk
            (secsOut.map (fun s : Section => { s with
              lessons := s.lessons.map (fillLessonStep fetch) })) := by
          cases hok
          rfl
        simp only [stepModeSections] at hsm
        split at hsm
        · cases hsm
        · split at hsm
          · cases hsm
          · have hsecs : secsOut = distributeSteps
                (sortByKey (fun st => (st.stepOrder.getD 0 : Int))
                  (buildSections ((sortByKey (fun st => (st.dir : Int)) steps).filter
                    (fun st => st.type == StepType.sec))))
                (sortByKey (fun l => (l.order : Int))
                  (((sortByKey (fun st => (st.dir : Int)) steps).filter
                      (fun st => st.type == StepType.template)).map
                    (pairTemplateStep ((sortByKey (fun st => (st.dir : Int)) steps).filter
                      (fun st => st.type == StepType.solution))) ++
                    ((sortByKey (fun st => (st.dir : Int)) steps).filter
                      (fun st => st.type == StepType.action)).map stepSourceLesson ++
                    (((sortByKey (fun st => (st.dir : Int)) steps).filter
                      (fun st => !((((sortByKey (fun st => (st.dir : Int)) steps).filter
                          (fun st => st.type == StepType.sec)).map (fun x => x.dir) ++
                        ((sortByKey (fun st => (st.dir : Int)) steps).filter
                          (fun st => st.type == StepType.template)).map (fun x => x.dir) ++
                        ((sortByKey (fun st => (st.dir : Int)) steps).filter
                          (fun st => st.type == StepType.solution)).map (fun x => x.dir) ++
                        ((sortByKey (fun st => (st.dir : Int)) steps).filter
                          (fun st => st.type == StepType.action)).map
                            (fun x => x.dir)).contains st.dir))).map stepSourceLesson))) := by
              cases hsm
              rfl
            have hperm := sortByKey_perm (fun st => (st.dir : Int)) steps
            have hsorted1 : (sortByKey (fun st => (st.dir : Int)) steps).Pairwise
                (fun a b => (a.dir : Int) ≤ (b.dir : Int)) :=
              sortByKey_sorted (fun st => (st.dir : Int)) steps
            have hsub : ((sortByKey (fun st => (st.dir : Int)) steps).filter
                (fun st => st.type == StepType.sec)).Pairwise
                (fun a b => (a.dir : Int) ≤ (b.dir : Int)) :=
              List.Pairwise.sublist (List.filter_sublist _) hsorted1
            have horder : ∀ s ∈ (sortByKey (fun st => (st.dir : Int)) steps).filter
                (fun st => st.type == StepType.sec), s.order = s.dir := by
              intro s hs
              exact hwf s (hperm.mem_iff.mp (List.mem_of_mem_filter hs))
            have hmap : (buildSections ((sortByKey (fun st => (st.dir : Int)) steps).filter
                  (fun st => st.type == StepType.sec))).map (fun sec => sec.stepOrder) =
                ((sortByKey (fun st => (st.dir : Int)) steps).filter
                  (fun st => st.type == StepType.sec)).map (fun s => some s.order) := by
              have := buildSections_stepOrders ((sortByKey (fun st => (st.dir : Int)) steps).filter
                (fun st => st.type == StepType.sec)) []
              simpa using this
            have hpair : (buildSections ((sortByKey (fun st => (st.dir : Int)) steps).filter
                (fun st => st.type == StepType.sec))).Pairwise
                (fun a b => (a.stepOrder.getD 0 : Int) ≤ (b.stepOrder.getD 0 : Int)) := by
              have hstep : List.Pairwise (fun (o1 o2 : Option Nat) =>
                  ((o1.getD 0 : Nat) : Int) ≤ ((o2.getD 0 : Nat) : Int))
                  ((buildSections ((sortByKey (fun st => (st.dir : Int)) steps).filter
                    (fun st => st.type == StepType.sec))).map (fun sec => sec.stepOrder)) := by
                rw [hmap]
                apply List.pairwise_map.mpr
                apply List.Pairwise.imp_of_mem ?_ hsub
                intro a b ha hb hab
                simp only [Option.getD_some]
                rw [horder a ha, horder b hb]
                exact_mod_cast hab
              exact (@List.pairwise_map Section (Option Nat) (fun sec => sec.stepOrder)
                (fun o1 o2 => ((o1.getD 0 : Nat) : Int) ≤ ((o2.getD 0 : Nat) : Int))
                (buildSections ((sortByKey (fun st => (st.dir : Int)) steps).filter
                  (fun st => st.type == StepType.sec)))).mp hstep
            have hid : sortByKey (fun st => (st.stepOrder.getD 0 : Int))
                (buildSections ((sortByKey (fun st => (st.dir : Int)) steps).filter
                  (fun st => st.type == StepType.sec))) =
                buildSections ((sortByKey (fun st => (st.dir : Int)) steps).filter
                  (fun st => st.type == StepType.sec)) :=
              sortByKey_of_sorted _ _ hpair
            have h1 : ∀ i (hi : i < (sortByKey (fun st => (st.stepOrder.getD 0 : Int))
                (buildSections ((sortByKey (fun st => (st.dir : Int)) steps).filter
                  (fun st => st.type == StepType.sec)))).length),
                ((sortByKey (fun st => (st.stepOrder.getD 0 : Int))
                  (buildSections ((sortByKey (fun st => (st.dir : Int)) steps).filter
                    (fun st => st.type == StepType.sec)))))[i].order = i + 1 := by
              rw [hid]
              exact buildSections_orders _ [] (fun i hi => by cases hi)
            have h2 : ∀ sec ∈ sortByKey (fun st => (st.stepOrder.getD 0 : Int))
                (buildSections ((sortByKey (fun st => (st.dir : Int)) steps).filter
                  (fun st => st.type == StepType.sec))),
                ∀ j (hj : j < sec.lessons.length), (sec.lessons)[j].order = j + 1 := by
              intro sec hsec j hj
              have hnil : sec.lessons = [] :=
                buildSections_lessons _ sec ((sortByKey_perm _ _).mem_iff.mp hsec)
              rw [hnil] at hj
              cases hj
            have hdist := distributeSteps_orders
              (sortByKey (fun l => (l.order : Int))
                (((sortByKey (fun st => (st.dir : Int)) steps).filter
                    (fun st => st.type == StepType.template)).map
                  (pairTemplateStep ((sortByKey (fun st => (st.dir : Int)) steps).filter
                    (fun st => st.type == StepType.solution))) ++
                  ((sortByKey (fun st => (st.dir : Int)) steps).filter
                    (fun st => st.type == StepType.action)).map stepSourceLesson ++
                  (((sortByKey (fun st => (st.dir : Int)) steps).filter
                    (fun st => !((((sortByKey (fun st => (st.dir : Int)) steps).filter
                        (fun st => st.type == StepType.sec)).map (fun x => x.dir) ++
                      ((sortByKey (fun st => (st.dir : Int)) steps).filter
                        (fun st => st.type == StepType.template)).map (fun x => x.dir) ++
                      ((sortByKey (fun st => (st.dir : Int)) steps).filter
                        (fun st => st.type == StepType.solution)).map (fun x => x.dir) ++
                      ((sortByKey (fun st => (st.dir : Int)) steps).filter
                        (fun st => st.type == StepType.action)).map
                          (fun x => x.dir)).contains st.dir))).map stepSourceLesson))) _ h1 h2
            have hfinal := fillSections_orders (fillLessonStep fetch)
              (fun l => (fillLessonStep_keeps fetch l).2.2.2.2.2.2.2.1) secsOut
              (by rw [hsecs]; exact hdist.1) (by rw [hsecs]; exact hdist.2)
            rw [hd]
            exact hfinal

/-- C9, witness for the steps-mode half at the sample stream: the first section's
order is 1 and its first lesson's order is 1. -/
theorem claim_C9_witness :
    ((((extractFromSteps sampleSteps (fun _ => [])).toOption.getD
        default).sections.getD 0 default).order = 1) ∧
    ((((extractFromSteps sampleSteps (fun _ => [])).toOption.getD
        default).sections.getD 0 default).lessons.getD 0 default).order = 1 := by
  have hC := claim_C9.2 sampleSteps (fun _ => [])
    ((extractFromSteps sampleSteps (fun _ => [])).toOption.getD default)
    (by decide) rfl
  have hlen : 0 < ((extractFromSteps sampleSteps (fun _ => [])).toOption.getD
      default).sections.length := by decide
  constructor
  · rw [List.getD_eq_getElem _ _ hlen]
    exact hC.1 0 hlen
  · have hsec := hC.2 (((extractFromSteps sampleSteps (fun _ => [])).toOption.getD
        default).sections.getD 0 default)
    have hmem : (((extractFromSteps sampleSteps (fun _ => [])).toOption.getD
        default).sections.getD 0 default) ∈
        ((extractFromSteps sampleSteps (fun _ => [])).toOption.getD default).sections := by
      rw [List.getD_eq_getElem _ _ hlen]
      exact List.getElem_mem hlen
    have hllen : 0 < (((extractFromSteps sampleSteps (fun _ => [])).toOption.getD
        default).sections.getD 0 default).lessons.length := by decide
    rw [List.getD_eq_getElem _ _ hllen]
    exact hsec hmem 0 hllen


/-- C1, counterexample: the claim fails for a lesson unit whose stream position
precedes the first Section marker's boundary position.  In the two-commit stream
`template: X` (position 0) then `section: S` (position 1), commit-history mode
assigns the lesson `X` to the single section `S`, whose boundary position 1 is
NOT less than or equal to the lesson's stream position 0: the loop of
`extractor.ts` lines 156-176 starts at `currentSectionIndex = 0` and never moves
below it, so such early lessons land in the FIRST section even though its
boundary lies after them. -/
theorem claim_C1_counterexample :
    (commitModeSections
        [{ hash := "h1", message := "template: X" },
          { hash := "h2", message := "section: S" }]).length = 1 ∧
    commitIndexOf
        [{ hash := "h1", message := "template: X" },
          { hash := "h2", message := "section: S" }]
        (((commitModeSections
            [{ hash := "h1", message := "template: X" },
              { hash := "h2", message := "section: S" }]).getD 0 default).hash) = 1 ∧
    (((commitModeSections
        [{ hash := "h1", message := "template: X" },
          { hash := "h2", message := "section: S" }]).getD 0 default).lessons.map
      (fun l => commitIndexOf
        [{ hash := "h1", message := "template: X" },
          { hash := "h2", message := "section: S" }] (lessonHash l))) = [0] := by
  decide


/-- C1, amended: in both modes the section-assignment step sends each lesson
unit to the CLOSEST PRECEDING boundary when one exists (its section's boundary
position is strictly below the lesson's stream position and no later section's
boundary is), and a lesson unit preceding every boundary is assigned to the
FIRST section (whose boundary position is at or above the lesson's position).
Commit-history mode: over `distribute` with real (`> -1`) strictly increasing
section boundary positions and lessons sorted by stream position.
Directory-listing mode: over `distributeSteps` with strictly increasing
`stepOrder || 0` keys; every input lesson is placed (with its `order` field
rewritten by `pushLesson`) in exactly such a section. -/
theorem claim_C1_amended :
    (∀ (commits : List GitCommit) (secs0 : List Section) (lessons : List Lesson),
      0 < secs0.length →
      (∀ j, j < secs0.length →
        -1 < commitIndexOf commits ((secs0.getD j default).hash)) →
      ((secs0.map (fun s => commitIndexOf commits s.hash)).Pairwise (· < ·)) →
      (lessons.Pairwise (fun a b => commitIndexOf commits (lessonHash a) ≤
        commitIndexOf commits (lessonHash b))) →
      (∀ s ∈ secs0, s.lessons = []) →
      ∀ i, i < secs0.length →
        ∀ l ∈ ((distribute commits 0 secs0 lessons).getD i default).lessons,
          (commitIndexOf commits ((secs0.getD i default).hash) <
              commitIndexOf commits (lessonHash l) ∧
            ∀ j, j < secs0.length →
              commitIndexOf commits ((secs0.getD j default).hash) <
                commitIndexOf commits (lessonHash l) → j ≤ i) ∨
          (i = 0 ∧ commitIndexOf commits (lessonHash l) ≤
            commitIndexOf commits ((secs0.getD 0 default).hash))) ∧
    (∀ (secs0 : List Section) (lessons : List Lesson),
      0 < secs0.length →
      ((secs0.map (fun s => s.stepOrder.getD 0)).Pairwise (· < ·)) →
      ∀ x ∈ lessons, ∃ n i, i < secs0.length ∧
        { x with order := n } ∈ ((distributeSteps secs0 lessons).getD i default).lessons ∧
        (((secs0.getD i default).stepOrder.getD 0 < x.order ∧
          ∀ j, j < secs0.length →
            (secs0.getD j default).stepOrder.getD 0 < x.order → j ≤ i) ∨
        (i = 0 ∧ x.order ≤ (secs0.getD 0 default).stepOrder.getD 0))) := by
  constructor
  · intro commits secs0 lessons hlen hpos hpw hsorted hempty i hi l hl
    have hkey : ∀ j, j < secs0.length →
        (secs0.map (fun s => commitIndexOf commits s.hash)).getD j 0 =
          commitIndexOf commits ((secs0.getD j default).hash) := fun j hj =>
      getD_map_key (fun s => commitIndexOf commits s.hash) secs0 j hj 0
    have hlenB : (secs0.map (fun s => commitIndexOf commits s.hash)).length =
        secs0.length := List.length_map _ _
    have hpos' : ∀ j, j < (secs0.map (fun s => commitIndexOf commits s.hash)).length →
        -1 < (secs0.map (fun s => commitIndexOf commits s.hash)).getD j 0 := by
      intro j hj
      rw [hkey j (hlenB ▸ hj)]
      exact hpos j (hlenB ▸ hj)
    have hcontent : ∀ i2, i2 < secs0.length → ∀ l2 ∈ (secs0.getD i2 default).lessons,
        ((secs0.map (fun s => commitIndexOf commits s.hash)).getD i2 0 <
            commitIndexOf commits (lessonHash l2) ∧
          ∀ j, j < (secs0.map (fun s => commitIndexOf commits s.hash)).length →
            (secs0.map (fun s => commitIndexOf commits s.hash)).getD j 0 <
              commitIndexOf commits (lessonHash l2) → j ≤ i2) ∨
        (i2 = 0 ∧ commitIndexOf commits (lessonHash l2) ≤
          (secs0.map (fun s => commitIndexOf commits s.hash)).getD 0 0) := by
      intro i2 hi2 l2 hl2
      have hmem : secs0.getD i2 default ∈ secs0 := by
        rw [List.getD_eq_getElem _ _ hi2]
        exact List.getElem_mem _
      rw [hempty (secs0.getD i2 default) hmem] at hl2
      cases hl2
    have hmain := distribute_closest commits
      (secs0.map (fun s => commitIndexOf commits s.hash)) lessons 0 secs0 rfl hlen
      hpos' hpw hsorted (Or.inl rfl) hcontent i hi l hl
    rcases hmain with ⟨h1, h2⟩ | ⟨h1, h2⟩
    · left
      constructor
      · rw [← hkey i hi]
        exact h1
      · intro j hj hjlt
        exact h2 j (by rw [hlenB]; exact hj) (by rw [hkey j hj]; exact hjlt)
    · right
      exact ⟨h1, by rw [← hkey 0 hlen]; exact h2⟩
  · intro secs0 lessons hlen hmono x hx
    rcases distributeSteps_placed lessons secs0 hlen x hx with ⟨n, hn⟩
    exact ⟨n, findSectionIndex secs0 x.order, findSectionIndex_lt secs0 x.order hlen,
      hn, findSectionIndex_spec secs0 x.order hlen hmono⟩

/-- C1, witness for the amended theorem: in commit-history mode the section at
boundary position 0 receives the template lesson at stream position 1, and in
directory-listing mode the lesson of order 2 is placed in the section with
`stepOrder = 1`. -/
theorem claim_C1_witness :
    ((commitIndexOf c1WitnessCommits (([c1WitnessSection].getD 0 default).hash) <
        commitIndexOf c1WitnessCommits
          (lessonHash { c1WitnessLesson with order := 1 }) ∧
      ∀ j, j < [c1WitnessSection].length →
        commitIndexOf c1WitnessCommits (([c1WitnessSection].getD j default).hash) <
          commitIndexOf c1WitnessCommits
            (lessonHash { c1WitnessLesson with order := 1 }) → j ≤ 0) ∨
      (0 = 0 ∧ commitIndexOf c1WitnessCommits
          (lessonHash { c1WitnessLesson with order := 1 }) ≤
        commitIndexOf c1WitnessCommits (([c1WitnessSection].getD 0 default).hash))) ∧
    (∃ n i, i < [c1WitnessStepSection].length ∧
      { c1WitnessStepLesson with order := n } ∈
        ((distributeSteps [c1WitnessStepSection] [c1WitnessStepLesson]).getD i
          default).lessons ∧
      ((([c1WitnessStepSection].getD i default).stepOrder.getD 0 <
          c1WitnessStepLesson.order ∧
        ∀ j, j < [c1WitnessStepSection].length →
          ([c1WitnessStepSection].getD j default).stepOrder.getD 0 <
            c1WitnessStepLesson.order → j ≤ i) ∨
      (i = 0 ∧ c1WitnessStepLesson.order ≤
        ([c1WitnessStepSection].getD 0 default).stepOrder.getD 0))) :=
  ⟨claim_C1_amended.1 c1WitnessCommits [c1WitnessSection] [c1WitnessLesson]
      (by decide) (by decide) (by decide) (by decide) (by decide) 0 (by decide)
      { c1WitnessLesson with order := 1 } (by decide),
    claim_C1_amended.2 [c1WitnessStepSection] [c1WitnessStepLesson] (by decide)
      (by decide) c1WitnessStepLesson (by decide)⟩


end Gitorial
